import Mathlib

/-
Verification of the LODS-MTI repository core (framework.py and lods_mti_algo.py).

Shallow embedding conventions:
* A tag's EPC is modelled by its integer value (`Nat`).  In the source a tag
  carries a hex string `epc`, its integer value `epc_int`, and the 96-bit
  zero-filled binary string `bin(int(epc,16))[2:].zfill(96)`; the three are in
  bijection for the 24-hex-digit EPCs the experiments generate (values below
  2^96), so one `Nat` represents all of them.  The binary string is modelled by
  `natToBits 96`, a `List Bool`, most significant bit first.
* Python `set` becomes `Finset Nat`; Python string prefix tests become
  `List.isPrefixOf` on bit lists.
* Real-valued quantities (times, energies, RSSI, rates) are modelled by `ℚ`;
  the source uses IEEE doubles.  The only decision the source takes on such a
  quantity inside the protocol is `error_cnt / total_checks <= 0.3`, where the
  two computations agree for every group size that fits in the protocol's
  group-size limits, since no fraction with such a small denominator other than
  3/10 itself lies within the rounding gap of the double nearest to 0.3.
* Randomness is passed in explicitly: each slot receives a `Draws` record
  holding the outcomes of the random draws the kernel makes in that slot.
-/

namespace LODS

/-- Most-significant-bit-first binary representation of `n`, zero-filled to
width `w`.  Models Python `bin(n)[2:].zfill(w)` for `n < 2^w`. -/
def natToBits : Nat → Nat → List Bool
  | 0, _ => []
  | w + 1, n => natToBits w (n / 2) ++ [n % 2 == 1]

/-- The 96-bit binary identifier of an EPC value, as used throughout
`lods_mti_algo.py` (`zfill(96)`). -/
def bin96 (n : Nat) : List Bool := natToBits 96 n

/-- Structural helper for `countOnes`; the first argument is fuel, which is
sufficient whenever it is at least the number whose bits are counted, since
halving strictly decreases a positive number. -/
def countOnesAux : Nat → Nat → Nat
  | 0, _ => 0
  | fuel + 1, n => if n = 0 then 0 else n % 2 + countOnesAux fuel (n / 2)

/-- Number of set bits; models Python `bin(segment).count('1')`. -/
def countOnes (n : Nat) : Nat := countOnesAux n n

/-- Longest common prefix of two strings;
models `LODS_MTI_Algorithm._get_lcp` (the loop returns `str1[:i]` at the first
differing position, and `str1[:min(len1,len2)]` when no position differs). -/
def getLcp : List Bool → List Bool → List Bool
  | a :: as, b :: bs => if a = b then a :: getLcp as bs else []
  | _, _ => []

/-- Inner loop of `_find_dynamic_slice` (`for k in range(limit_k, 0, -1)`),
with `fuel` playing the role of the Python loop variable `k`.  The `0` case is
the fall-through `return 1, self.sorted_tags_bin[start_idx]['bin']`. -/
def slcLoop (tags : List Nat) (start : Nat) : Nat → Nat × List Bool
  | 0 => (1, bin96 (tags.getD start 0))
  | k + 1 =>
    let tagFirst := bin96 (tags.getD start 0)
    let tagLast := bin96 (tags.getD (start + (k + 1) - 1) 0)
    let currentLcp := getLcp tagFirst tagLast
    let tagOutside := bin96 (tags.getD (start + (k + 1)) 0)
    if currentLcp.isPrefixOf tagOutside then slcLoop tags start k
    else (k + 1, currentLcp)

/-- Models `LODS_MTI_Algorithm._find_dynamic_slice`.  `tags` is the sorted EPC
list (`self.sorted_tags_bin`), `maxGroupSize` is `self.max_group_size`. -/
def findDynamicSlice (maxGroupSize : Nat) (tags : List Nat) (start : Nat)
    (override : Option Nat) : Nat × List Bool :=
  let remaining := tags.length - start
  if remaining = 0 then (0, [])
  else
    let limitK := min maxGroupSize remaining
    let limitK := match override with
      | some o => min limitK o
      | none => limitK
    if tags.length ≤ start + limitK then
      let groupFirst := bin96 (tags.getD start 0)
      let groupLast := bin96 (tags.getD (start + limitK - 1) 0)
      (limitK, getLcp groupFirst groupLast)
    else slcLoop tags start limitK

/-- Duplicate test used to model the incremental `slots` set of
`_find_perfect_seed`: the Python loop reports a collision exactly when the
mapped list contains a repeated value. -/
def hasDup : List Nat → Bool
  | [] => false
  | x :: xs => xs.contains x || hasDup xs

/-- Seed loop of `_find_perfect_seed` over the remaining candidate seeds. -/
def findSeedAux (epcInts : List Nat) (modSize : Nat) : List Nat → Option Nat
  | [] => none
  | s :: rest =>
    if hasDup (epcInts.map (fun v => (v ^^^ s) % modSize)) then
      findSeedAux epcInts modSize rest
    else some s

/-- Models `LODS_MTI_Algorithm._find_perfect_seed` (`for seed in range(16)`).
Python raises `ZeroDivisionError` on `mod_size = 0`; every call site passes
`max(1, ...)`, and theorems about this function assume a positive modulus. -/
def findPerfectSeed (epcInts : List Nat) (modSize : Nat) : Option Nat :=
  findSeedAux epcInts modSize (List.range 16)

/-- Physical signal states; models `framework.PacketType`. -/
inductive PacketTypeL
  | IDLE
  | COLLISION
  | SUCCESS
  | QUERY
  | ACK
deriving DecidableEq, Repr

/-- Impairment metadata attached to a slot result
(`{'erasure': int_mask, 'shift': int_offset}` in `framework.py`). -/
structure ExtraInfo where
  erasure : Nat
  shift : Nat
deriving DecidableEq, Repr

/-- Models `framework.SlotResult`. -/
structure SlotResultL where
  status : PacketTypeL
  tagIds : List Nat
  resolvedData : Option (List Nat) := none
  channelNoiseMask : Nat := 0
  extraInfo : Option ExtraInfo := none
deriving DecidableEq, Repr

/-- Models `framework.ReaderCommand`.  The responder-selection closure built in
`get_next_command` always tests whether the tag's binary identifier starts with
`final_mask`; it is therefore represented by that mask, with `none` standing
for the default `lambda t: False` predicate of a command that carries no mask
(the termination command). -/
structure CommandL where
  payloadBits : Int
  expectedReplyBits : Nat
  responseMask : Option (List Bool) := none
  concatenatedTagsCount : Nat := 1
deriving DecidableEq, Repr

/-- One entry of `self.last_sent_context`:
`{'epc': ..., 'slot': ..., 'rho': ...}`. -/
structure CtxItem where
  epc : Nat
  slot : Nat
  rho : Nat
deriving DecidableEq, Repr

/-- State of `LODS_MTI_Algorithm` after `initialize` (constructor parameters
plus the mutable fields). -/
structure AlgState where
  maxGroupSize : Nat
  targetRho : Nat
  isAdaptive : Bool
  maxPayloadBit : Nat
  currentRho : Nat
  sortedTags : List Nat
  totalTags : Nat
  cursor : Nat
  isRunning : Bool
  lastSentContext : List CtxItem
  verifiedPresent : Finset Nat
  verifiedMissing : Finset Nat

/-- Models `LODS_MTI_Algorithm.initialize` (together with the constructor).
The source sorts the tag records by their 96-bit zero-filled binary strings;
for EPC values below `2^96` that lexicographic order coincides with numeric
order, so the embedding sorts the values numerically. -/
def initState (maxGroupSize targetRho : Nat) (isAdaptive : Bool)
    (maxPayloadBit : Nat) (expectedTags : List Nat) : AlgState :=
  { maxGroupSize := maxGroupSize
    targetRho := targetRho
    isAdaptive := isAdaptive
    maxPayloadBit := maxPayloadBit
    currentRho := if isAdaptive then 4 else targetRho
    sortedTags := expectedTags.insertionSort (· ≤ ·)
    totalTags := expectedTags.length
    cursor := 0
    isRunning := true
    lastSentContext := []
    verifiedPresent := ∅
    verifiedMissing := ∅ }

/-- Ground-truth responder set reconstruction at the top of Phase 1 of
`get_next_command`: an `IDLE` previous slot is treated as an empty responder
set, otherwise the recorded `tag_ids` are used. -/
def actualResponders (prev : SlotResultL) : List Nat :=
  if prev.status = PacketTypeL.IDLE then [] else prev.tagIds

/-- The `rho`-bit sub-field mask of one tag:
`((1 << rho) - 1) << (slot * rho)`. -/
def subfieldMask (slot rho : Nat) : Nat := ((1 <<< rho) - 1) <<< (slot * rho)

/-- The ideal superimposed bitmap rebuilt in Phase 1: each context tag that is
in the responder set contributes its full sub-field pattern. -/
def idealBitmap (ctx : List CtxItem) (responders : List Nat) : Nat :=
  ctx.foldl
    (fun acc item =>
      if responders.contains item.epc then
        acc ||| subfieldMask item.slot item.rho
      else acc)
    0

/-- Set-bit count of one tag's sub-field of the received bitmap
(`match_count` in Phase 1). -/
def matchCount (received slot rho : Nat) : Nat :=
  countOnes (received &&& subfieldMask slot rho)

/-- Accumulator of the Phase 1 verification loop. -/
structure VerifyAcc where
  present : Finset Nat
  missing : Finset Nat
  errorCnt : Nat
  errorFlag : Bool

/-- One iteration of the Phase 1 loop over `self.last_sent_context`. -/
def verifyItem (received voteThreshold : Nat) (acc : VerifyAcc)
    (item : CtxItem) : VerifyAcc :=
  let mc := matchCount received item.slot item.rho
  if voteThreshold ≤ mc then
    { acc with
      present := insert item.epc acc.present
      errorFlag := acc.errorFlag || decide (mc < item.rho)
      errorCnt := acc.errorCnt + if mc < item.rho then 1 else 0 }
  else
    { acc with
      missing := insert item.epc acc.missing
      errorCnt := acc.errorCnt + 1 }

/-- Phase 1 of `get_next_command` (verification), for a non-empty context:
returns the updated present/missing sets, `error_cnt`, `total_checks`
(one check per context entry, hence the context length) and `error_flag`. -/
def verifyPhase (ctx : List CtxItem) (prev : SlotResultL)
    (present missing : Finset Nat) :
    Finset Nat × Finset Nat × Nat × Nat × Bool :=
  let responders := actualResponders prev
  let received := idealBitmap ctx responders ^^^ prev.channelNoiseMask
  let lastRho := (ctx.headD ⟨0, 0, 0⟩).rho
  let voteThreshold := if 4 ≤ lastRho then 3 else lastRho
  let acc := ctx.foldl (verifyItem received voteThreshold)
    ⟨present, missing, 0, false⟩
  (acc.present, acc.missing, acc.errorCnt, ctx.length, acc.errorFlag)

/-- Scheduling loop of Phase 3 (`while current_limit_k > 0`).  The second
argument is `current_limit_k`; each iteration shrinks it to `k - 1`.  The
first argument is fuel making the recursion structural; it strictly dominates
the limit throughout because a slice never exceeds its limit override
(`findDynamicSlice_fst_le`), so calling with `fuel = limit` reproduces the
Python loop exactly.  Returns `(k, mask, seed, reply_bits, num_slots)` on
break, `none` if the loop exhausts without a break. -/
def scheduleLoop (maxGroupSize : Nat) (tags : List Nat)
    (cursor activeRho maxReplyBits : Nat) :
    Nat → Nat → Option (Nat × List Bool × Nat × Nat × Nat)
  | 0, _ => none
  | _ + 1, 0 => none
  | fuel + 1, limit + 1 =>
    let km := findDynamicSlice maxGroupSize tags cursor (some (limit + 1))
    let k := km.1
    let mask := km.2
    let desiredLen := k * activeRho
    let replyBits := max 4 (min desiredLen maxReplyBits)
    let numLogicalSlots := max 1 (replyBits / activeRho)
    let epcInts := (tags.drop cursor).take k
    match findPerfectSeed epcInts numLogicalSlots with
    | some seed => some (k, mask, seed, replyBits, numLogicalSlots)
    | none =>
      scheduleLoop maxGroupSize tags cursor activeRho maxReplyBits fuel (k - 1)

/-- Phase 1 of `get_next_command` as a state transformer: verification of the
pending context (if any), tolerance-based adaptation of `current_rho`, and
clearing of the context.  Returns the updated state and `error_flag`.
The source compares `error_cnt / total_checks <= 0.3`; with a positive check
count this is the exact rational comparison `10 * error_cnt <= 3 * total_checks`
(`tolerance_cmp_iff`), which the embedding uses so that the decision stays
within decidable integer arithmetic. -/
def phase1 (s : AlgState) (prev : SlotResultL) : AlgState × Bool :=
  match s.lastSentContext with
  | [] => (s, false)
  | _ :: _ =>
    let ctx := s.lastSentContext
    let r := verifyPhase ctx prev s.verifiedPresent s.verifiedMissing
    let errorCnt := r.2.2.1
    let totalChecks := r.2.2.2.1
    let newRho :=
      if s.isAdaptive && decide (0 < totalChecks) then
        if 10 * errorCnt ≤ 3 * totalChecks then 2 else 4
      else s.currentRho
    ({ s with
        verifiedPresent := r.1
        verifiedMissing := r.2.1
        currentRho := newRho
        lastSentContext := [] },
      r.2.2.2.2)

/-- Models `LODS_MTI_Algorithm.get_next_command`: Phase 1 (verification and
adaptation), Phase 2 (termination check), Phase 3 (scheduling and slicing).
Returns the updated state and the issued command. -/
def getNextCommand (s : AlgState) (prev : SlotResultL) : AlgState × CommandL :=
  let s1 := (phase1 s prev).1
  let errorFlag := (phase1 s prev).2
  if s1.totalTags ≤ s1.cursor then
    ({ s1 with isRunning := false },
     { payloadBits := -1, expectedReplyBits := 0 })
  else
    let activeRho := s1.currentRho
    let maxReplyBits :=
      if decide (4 ≤ activeRho) && errorFlag then min 128 s1.maxPayloadBit
      else s1.maxPayloadBit
    let maxPhysK := maxReplyBits / activeRho
    let currentLimitK := min (min s1.maxGroupSize maxPhysK) (s1.totalTags - s1.cursor)
    let sched := (scheduleLoop s1.maxGroupSize s1.sortedTags s1.cursor activeRho
        maxReplyBits currentLimitK currentLimitK).getD (0, [], 0, 0, 0)
    let finalK := sched.1
    let finalMask := sched.2.1
    let finalSeed := sched.2.2.1
    let finalReplyBits := sched.2.2.2.1
    let finalNumSlots := sched.2.2.2.2
    let currentGroup := (s1.sortedTags.drop s1.cursor).take finalK
    let ctx := currentGroup.map
      (fun v => CtxItem.mk v ((v ^^^ finalSeed) % finalNumSlots) activeRho)
    let baseLen := finalMask.length + 4 + 4
    let crcLen := if baseLen < 32 then 5 else 16
    let payloadCost := baseLen + crcLen
    ({ s1 with lastSentContext := ctx, cursor := s1.cursor + finalK },
     { payloadBits := (payloadCost : Int)
       expectedReplyBits := finalReplyBits
       responseMask := some finalMask })

/-- Models `LODS_MTI_Algorithm.is_finished`. -/
def isFinishedAlg (s : AlgState) : Bool := !s.isRunning

/-- Ground-truth tag of the kernel (`framework.Tag`): EPC value, presence
flag, and the RSSI used only for capture-effect arbitration. -/
structure TagT where
  epc : Nat
  isPresent : Bool
  rssi : ℚ

/-- Models `framework.SimulationConfig` (the fields the kernel reads;
`TOTAL_TAGS` and `MISSING_RATE` are scenario-generation inputs the kernel
itself never uses). -/
structure SimConfig where
  enableNoise : Bool := false
  packetErrorRate : ℚ := 0
  bitErrorRate : ℚ := 0
  enableCapture : Bool := false
  captureRatioDb : ℚ := 3
  enableEnergyTracking : Bool := false
  clockDriftRate : ℚ := 0
  burstErasureLen : Nat := 0
  jitterOffset : Nat := 0
  guardIntervalBits : ℚ := 0

/-- Models `framework.CONSTANTS` (`0.2 = 1/5`, `100e-6 = 1/10000`,
`10e-6 = 1/100000`). -/
structure Consts where
  tPreamble : ℚ := 300
  t1 : ℚ := 240
  t2 : ℚ := 120
  blf : ℚ := 40000
  readerRate : ℚ := 80000
  pTxReader : ℚ := 1
  pRxReader : ℚ := 1 / 5
  pTxTag : ℚ := 1 / 10000
  pRxTag : ℚ := 1 / 100000
  maxSlotsLimit : Nat := 200000

/-- Outcomes of the random draws the kernel makes in one slot, passed in
explicitly: the result of `random.random() < packet_error_rate`, the mask
assembled by the per-bit `random.random() < BIT_ERROR_RATE` draws, and the
result of `random.randint(0, max_start)` for the burst-erasure start. -/
structure Draws where
  packetLoss : Bool := false
  bitFlips : Nat := 0
  burstStart : Nat := 0

/-- Models `framework._calc_dynamic_reply_time`. -/
def calcDynamicReplyTime (K : Consts) (bitsCount : Nat) : ℚ :=
  let tData := (bitsCount : ℚ) / K.blf * 1000000
  let overhead :=
    if bitsCount ≤ 1 then K.t1 + K.t2
    else if bitsCount ≤ 20 then K.t1 + K.t2
    else 3 * K.t1 + 2 * K.t2 + 18 / K.readerRate * 1000000
  tData + overhead

/-- Whether a tag answers the command: the kernel calls the command's
`response_protocol`, which for every command built by the protocol engine
tests `t_bin.startswith(final_mask)`; a command without a mask uses the
default predicate `lambda t: False`. -/
def respondsTo (cmd : CommandL) (epc : Nat) : Bool :=
  match cmd.responseMask with
  | none => false
  | some mask => mask.isPrefixOf (bin96 epc)

/-- Basic slot classification of step D.1 of the kernel loop, including the
optional capture-effect resolution.  `rssiOf` is the `rssi_map` lookup.
Returns the slot status and `resolved_data`. -/
def classifySlot (cfg : SimConfig) (rssiOf : Nat → ℚ) (responders : List Nat) :
    PacketTypeL × Option (List Nat) :=
  match responders with
  | [] => (PacketTypeL.IDLE, none)
  | [e] => (PacketTypeL.SUCCESS, some [e])
  | _ =>
    if cfg.enableCapture then
      let sorted := (responders.map (fun e => (e, rssiOf e))).insertionSort
        (fun a b => b.2 ≤ a.2)
      match sorted with
      | a :: b :: _ =>
        if cfg.captureRatioDb ≤ a.2 - b.2 then (PacketTypeL.SUCCESS, some [a.1])
        else (PacketTypeL.COLLISION, none)
      | _ => (PacketTypeL.COLLISION, none)
    else (PacketTypeL.COLLISION, none)

/-- Noise and impairment injection, step D.2 of the kernel loop, for a slot
with the given pre-impairment status and resolved data.  Returns the final
status, resolved data, noise mask and impairment metadata.

The burst-erasure/jitter branch of the source (`framework.py` lines 242-262)
generates the erasure mask and then evaluates `if not supports_phy:`, where
`supports_phy` is a name that is bound nowhere in the module — Python raises
`NameError` at that line.  The embedding models that crash as `Except.error`
carrying the Python error message. -/
def injectImpairments (cfg : SimConfig) (draws : Draws) (expectedLen : Nat)
    (status : PacketTypeL) (resolved : Option (List Nat)) :
    Except String (PacketTypeL × Option (List Nat) × Nat × Option ExtraInfo) :=
  if cfg.enableNoise && draws.packetLoss then
    Except.ok (PacketTypeL.IDLE, resolved, 0, none)
  else if status ≠ PacketTypeL.IDLE ∧ 0 < expectedLen then
    let noiseMask0 :=
      if cfg.enableNoise && decide (0 < cfg.bitErrorRate) then
        draws.bitFlips % 2 ^ expectedLen
      else 0
    let noiseMask1 :=
      if 0 < cfg.clockDriftRate then
        let maxSafeBits := (⌊(1 : ℚ) / 2 / cfg.clockDriftRate⌋).toNat
        if maxSafeBits < expectedLen then
          noiseMask0 ||| ((2 ^ (expectedLen - maxSafeBits) - 1) <<< maxSafeBits)
        else noiseMask0
      else noiseMask0
    if 0 < cfg.burstErasureLen ∨ 0 < cfg.jitterOffset then
      Except.error "NameError: name 'supports_phy' is not defined"
    else Except.ok (status, resolved, noiseMask1, none)
  else Except.ok (status, resolved, 0, none)

/-- Per-slot statistics ledger of the kernel loop. -/
structure KernelAcc where
  totalTimeUs : ℚ := 0
  readerEnergy : ℚ := 0
  tagEnergy : ℚ := 0
  totalSlots : Nat := 0
  successSlots : Nat := 0
  collisionSlots : Nat := 0
  idleSlots : Nat := 0
deriving DecidableEq, Repr

/-- The statistics dictionary returned by `run_high_fidelity_simulation` —
the return value has this shape on every path, including a circuit-breaker
abort, which carries no additional marker. -/
structure Stats where
  totalTimeUs : ℚ
  totalReaderEnergyJ : ℚ
  totalTagEnergyJ : ℚ
  totalSlots : Nat
  successSlots : Nat
  collisionSlots : Nat
  idleSlots : Nat
  phyEfficiency : ℚ
deriving DecidableEq, Repr

/-- Final packaging of the ledger into the returned statistics. -/
def finishStats (acc : KernelAcc) : Stats :=
  { totalTimeUs := acc.totalTimeUs
    totalReaderEnergyJ := acc.readerEnergy
    totalTagEnergyJ := acc.tagEnergy
    totalSlots := acc.totalSlots
    successSlots := acc.successSlots
    collisionSlots := acc.collisionSlots
    idleSlots := acc.idleSlots
    phyEfficiency :=
      if 0 < acc.totalSlots then (acc.successSlots : ℚ) / (acc.totalSlots : ℚ)
      else 0 }

/-- Body of the kernel loop for one slot (steps B-E): downlink accounting,
tag responses, classification, impairment injection, uplink accounting, and
the construction of the next `SlotResult`.  `presentTags` is the filtered
present-tag list, `presentCount` its length. -/
def kernelSlot (K : Consts) (cfg : SimConfig) (presentTags : List TagT)
    (rssiOf : Nat → ℚ) (draws : Draws) (cmd : CommandL) (acc : KernelAcc) :
    Except String (KernelAcc × SlotResultL) :=
  let presentCount := presentTags.length
  let tReaderTx := K.tPreamble + (cmd.payloadBits : ℚ) / K.readerRate * 1000000
  let acc1 : KernelAcc :=
    { acc with
      totalTimeUs := acc.totalTimeUs + tReaderTx
      readerEnergy := acc.readerEnergy + tReaderTx * (1 / 1000000) * K.pTxReader
      tagEnergy := acc.tagEnergy +
        (if cfg.enableEnergyTracking then
          (presentCount : ℚ) * (tReaderTx * (1 / 1000000)) * K.pRxTag
        else 0) }
  let responders := (presentTags.filter (fun t => respondsTo cmd t.epc)).map (·.epc)
  let acc2 := { acc1 with totalSlots := acc1.totalSlots + 1 }
  let sr := classifySlot cfg rssiOf responders
  let status := sr.1
  let resolved := sr.2
  let acc3 : KernelAcc :=
    match status with
    | PacketTypeL.IDLE => { acc2 with idleSlots := acc2.idleSlots + 1 }
    | PacketTypeL.SUCCESS => { acc2 with successSlots := acc2.successSlots + 1 }
    | _ => { acc2 with collisionSlots := acc2.collisionSlots + 1 }
  match injectImpairments cfg draws cmd.expectedReplyBits status resolved with
  | Except.error e => Except.error e
  | Except.ok (status2, resolved2, noiseMask, extra) =>
    let stepDuration :=
      if status2 = PacketTypeL.IDLE then K.t1
      else
        let baseDuration := calcDynamicReplyTime K cmd.expectedReplyBits
        let gapPenalty :=
          if 1 < cmd.concatenatedTagsCount ∧ 0 < cfg.guardIntervalBits then
            ((cmd.concatenatedTagsCount - 1 : Nat) : ℚ) * cfg.guardIntervalBits *
              ((1 / K.blf) * 1000000)
          else 0
        baseDuration + gapPenalty
    let activeCnt := responders.length
    let acc4 : KernelAcc :=
      { acc3 with
        totalTimeUs := acc3.totalTimeUs + stepDuration
        readerEnergy := acc3.readerEnergy + stepDuration * (1 / 1000000) * K.pTxReader
        tagEnergy := acc3.tagEnergy +
          (if cfg.enableEnergyTracking then
            (activeCnt : ℚ) * (stepDuration * (1 / 1000000)) * K.pTxTag +
              ((presentCount - activeCnt : Nat) : ℚ) * (stepDuration * (1 / 1000000)) * K.pRxTag
          else 0) }
    Except.ok (acc4,
      { status := status2
        tagIds := responders
        resolvedData := resolved2
        channelNoiseMask := noiseMask
        extraInfo := extra })

/-- An algorithm as the kernel sees it (the `AlgorithmInterface` step
contract), over an abstract state type. -/
structure AlgOps (σ : Type) where
  getNextCommand : σ → SlotResultL → σ × CommandL
  isFinished : σ → Bool

/-- The kernel loop (`while not algorithm.is_finished()`), with explicit fuel
standing for the unbounded iteration; running out of fuel returns the ledger
accumulated so far, like interrupting the loop.  The circuit-breaker check and
the sentinel check mirror the source order. -/
def kernelLoop {σ : Type} (K : Consts) (cfg : SimConfig) (ops : AlgOps σ)
    (presentTags : List TagT) (rssiOf : Nat → ℚ) (draws : Nat → Draws) :
    Nat → σ → SlotResultL → KernelAcc → Except String (KernelAcc × σ)
  | 0, s, _, acc => Except.ok (acc, s)
  | fuel + 1, s, prev, acc =>
    if ops.isFinished s then Except.ok (acc, s)
    else if K.maxSlotsLimit < acc.totalSlots then Except.ok (acc, s)
    else
      let sc := ops.getNextCommand s prev
      let s2 := sc.1
      let cmd := sc.2
      if cmd.payloadBits < 0 then Except.ok (acc, s2)
      else
        match kernelSlot K cfg presentTags rssiOf (draws acc.totalSlots) cmd acc with
        | Except.error e => Except.error e
        | Except.ok (acc2, res) =>
          kernelLoop K cfg ops presentTags rssiOf draws fuel s2 res acc2

/-- RSSI lookup built from the present tags (`rssi_map`); for duplicate EPCs
the Python dict keeps the last occurrence.  The kernel only queries EPCs of
responding (hence present) tags, so the default is never observable. -/
def rssiMap (presentTags : List TagT) (e : Nat) : ℚ :=
  ((presentTags.reverse.find? (fun t => t.epc == e)).map (·.rssi)).getD 0

/-- Models `framework.run_high_fidelity_simulation`, returning the statistics
dictionary together with the algorithm's final state; `Except.error` models a
Python exception escaping the function. -/
def runSimulation {σ : Type} (K : Consts) (cfg : SimConfig) (ops : AlgOps σ)
    (trueTags : List TagT) (draws : Nat → Draws) (fuel : Nat) (s0 : σ) :
    Except String (Stats × σ) :=
  let presentTags := trueTags.filter (·.isPresent)
  match kernelLoop K cfg ops presentTags (rssiMap presentTags) draws fuel s0
      { status := PacketTypeL.IDLE, tagIds := [] } {} with
  | Except.error e => Except.error e
  | Except.ok (acc, s) => Except.ok (finishStats acc, s)

/-- The LODS protocol engine packaged for the kernel. -/
def lodsOps : AlgOps AlgState :=
  { getNextCommand := getNextCommand
    isFinished := isFinishedAlg }

/-- A protocol that never finishes and keeps issuing the same cost-free
command: drives the kernel into its circuit breaker. -/
def neverOps : AlgOps Unit :=
  { getNextCommand := fun _ _ => ((), { payloadBits := 0, expectedReplyBits := 0 })
    isFinished := fun _ => false }

/-- A protocol issuing the identical command sequence but finishing normally
after three slots. -/
def countOps : AlgOps Nat :=
  { getNextCommand := fun s _ => (s + 1, { payloadBits := 0, expectedReplyBits := 0 })
    isFinished := fun s => decide (3 ≤ s) }

/-- Kernel constants with the configurable slot-count ceiling set to 2. -/
def breakerConsts : Consts := { maxSlotsLimit := 2 }

/-- A run of the never-finishing protocol that trips the circuit breaker. -/
def breakerRun : Except String (Stats × Unit) :=
  runSimulation breakerConsts {} neverOps [] (fun _ => {}) 10 ()

/-- The statistics returned by the breaker-aborted run. -/
def breakerStats : Stats :=
  match breakerRun with
  | Except.ok p => p.1
  | Except.error _ => finishStats {}

/-- States of one protocol instance reachable from `s0` under arbitrary slot
results (covering every channel behaviour the kernel may produce). -/
inductive ReachState (s0 : AlgState) : AlgState → Prop
  | refl : ReachState s0 s0
  | step (s : AlgState) (prev : SlotResultL) :
      ReachState s0 s → ReachState s0 (getNextCommand s prev).1

/-- Run invariant of the protocol engine against the sorted population `L`:
the pending context is the group just before the cursor, the verification
sets partition exactly the tags before that group, and a finished engine has
consumed everything. -/
def InvC1 (L : List Nat) (s : AlgState) : Prop :=
  s.sortedTags = L ∧ s.totalTags = L.length ∧ s.cursor ≤ L.length ∧
  Disjoint s.verifiedPresent s.verifiedMissing ∧
  (∃ k, k ≤ s.cursor ∧
    s.lastSentContext.map (·.epc) = (L.drop (s.cursor - k)).take k ∧
    s.verifiedPresent ∪ s.verifiedMissing = (L.take (s.cursor - k)).toFinset ∧
    (s.isRunning = false → s.cursor = L.length ∧ k = 0))

/-- Coupled invariant of the kernel-driven LODS run against the sorted
population `L` and the present-EPC list `P`: on top of the partition
bookkeeping of `InvC1`, the verified sets record exactly the present/absent
split of the processed tags, the pending context has collision-free logical
slots and a uniform positive redundancy, the previous slot carries no channel
noise, and its responder set agrees with ground-truth presence on every
context tag. -/
def CInvC2 (P L : List Nat) (s : AlgState) (prev : SlotResultL) : Prop :=
  s.sortedTags = L ∧ s.totalTags = L.length ∧ s.cursor ≤ L.length ∧
  1 ≤ s.currentRho ∧ prev.channelNoiseMask = 0 ∧
  ∃ k, k ≤ s.cursor ∧
    s.lastSentContext.map (·.epc) = (L.drop (s.cursor - k)).take k ∧
    (s.lastSentContext.map (·.slot)).Nodup ∧
    (∀ it ∈ s.lastSentContext, it.rho = s.currentRho) ∧
    (∀ it ∈ s.lastSentContext, it.epc ∈ actualResponders prev ↔ it.epc ∈ P) ∧
    s.verifiedPresent =
      ((L.take (s.cursor - k)).filter (fun v => decide (v ∈ P))).toFinset ∧
    s.verifiedMissing =
      ((L.take (s.cursor - k)).filter (fun v => !decide (v ∈ P))).toFinset ∧
    (s.isRunning = false → s.cursor = L.length ∧ k = 0)

/-- A concrete two-tag scenario (EPC 1 present, EPC 2 missing) used to
exercise the noise-free correctness statement on an actual kernel run. -/
def exampleTags : List TagT := [⟨1, true, 0⟩, ⟨2, false, 0⟩]

/-- The initial protocol state of the two-tag scenario (flagship parameters:
group size 128, adaptive, 256-bit payload ceiling). -/
def exampleS0 : AlgState := initState 128 4 true 256 (exampleTags.map (·.epc))

/-- The final algorithm state of the noise-free two-tag run, extracted from
the kernel's return value (`none` would mean an exception escaped). -/
def exampleRun : Option AlgState :=
  (runSimulation {} {} lodsOps exampleTags (fun _ => {}) 5
    exampleS0).toOption.map (·.2)

/-- The final algorithm state of the two-tag run, with the (unreached)
fallback being the initial state. -/
def exampleFinal : AlgState := exampleRun.getD exampleS0

theorem countOnesAux_zero (fuel : Nat) : countOnesAux fuel 0 = 0 := by
  cases fuel <;> simp [countOnesAux]

theorem countOnesAux_congr :
    ∀ f1 f2 n : Nat, n ≤ f1 → n ≤ f2 → countOnesAux f1 n = countOnesAux f2 n := by
  intro f1
  induction f1 with
  | zero =>
    intro f2 n h1 _
    have : n = 0 := by omega
    subst this
    rw [countOnesAux_zero, countOnesAux_zero]
  | succ f1 ih =>
    intro f2 n h1 h2
    by_cases hn : n = 0
    · subst hn; rw [countOnesAux_zero, countOnesAux_zero]
    · obtain ⟨f2x, rfl⟩ : ∃ f2x, f2 = f2x + 1 := ⟨f2 - 1, by omega⟩
      show (if n = 0 then 0 else n % 2 + countOnesAux f1 (n / 2)) =
        (if n = 0 then 0 else n % 2 + countOnesAux f2x (n / 2))
      rw [if_neg hn, if_neg hn, ih f2x (n / 2) (by omega) (by omega)]

theorem countOnes_zero : countOnes 0 = 0 := rfl

theorem countOnes_rec (n : Nat) (h : n ≠ 0) :
    countOnes n = n % 2 + countOnes (n / 2) := by
  obtain ⟨m, rfl⟩ : ∃ m, n = m + 1 := ⟨n - 1, by omega⟩
  show (if m + 1 = 0 then 0 else (m + 1) % 2 + countOnesAux m ((m + 1) / 2)) = _
  rw [if_neg (by omega),
    countOnesAux_congr m ((m + 1) / 2) ((m + 1) / 2) (by omega) (by omega)]
  rfl

theorem countOnes_two_mul_add (n b : Nat) (hb : b < 2) :
    countOnes (2 * n + b) = b + countOnes n := by
  rcases Nat.eq_zero_or_pos (2 * n + b) with h0 | hpos
  · have hn : n = 0 := by omega
    have hb0 : b = 0 := by omega
    subst hn; subst hb0; simp [countOnes_zero]
  · rw [countOnes_rec _ (by omega)]
    have h1 : (2 * n + b) % 2 = b := by omega
    have h2 : (2 * n + b) / 2 = n := by omega
    rw [h1, h2]

theorem countOnes_two_mul (n : Nat) : countOnes (2 * n) = countOnes n := by
  have := countOnes_two_mul_add n 0 (by omega)
  simpa using this

theorem countOnes_shiftLeft (x k : Nat) : countOnes (x <<< k) = countOnes x := by
  induction k with
  | zero => rfl
  | succ k ih =>
    have h : x <<< (k + 1) = 2 * (x <<< k) := by
      rw [Nat.shiftLeft_eq, Nat.shiftLeft_eq, pow_succ]; ring
    rw [h, countOnes_two_mul, ih]

theorem countOnes_two_pow_sub_one (r : Nat) : countOnes (2 ^ r - 1) = r := by
  induction r with
  | zero => simp [countOnes_zero]
  | succ r ih =>
    have h : 2 ^ (r + 1) - 1 = 2 * (2 ^ r - 1) + 1 := by
      have : 1 ≤ 2 ^ r := Nat.one_le_two_pow
      rw [pow_succ]; omega
    rw [h, countOnes_two_mul_add _ 1 (by omega), ih]; omega

theorem subfieldMask_eq (slot rho : Nat) :
    subfieldMask slot rho = (2 ^ rho - 1) * 2 ^ (slot * rho) := by
  rw [subfieldMask, Nat.shiftLeft_eq, Nat.one_shiftLeft]

theorem countOnes_subfieldMask (slot rho : Nat) :
    countOnes (subfieldMask slot rho) = rho := by
  rw [subfieldMask, Nat.one_shiftLeft, countOnes_shiftLeft,
    countOnes_two_pow_sub_one]

theorem testBit_subfieldMask (slot rho i : Nat) :
    (subfieldMask slot rho).testBit i =
      (decide (slot * rho ≤ i) && decide (i < slot * rho + rho)) := by
  rw [subfieldMask, Nat.one_shiftLeft]
  rw [Nat.testBit_shiftLeft, Nat.testBit_two_pow_sub_one]
  by_cases h : slot * rho ≤ i
  · have h2 : (i - slot * rho < rho) ↔ i < slot * rho + rho := by omega
    simp [h, h2]
  · simp [h]

theorem subfieldMask_disjoint (s1 s2 rho : Nat) (hne : s1 ≠ s2) :
    subfieldMask s1 rho &&& subfieldMask s2 rho = 0 := by
  apply Nat.eq_of_testBit_eq
  intro i
  rw [Nat.testBit_and, Nat.zero_testBit, testBit_subfieldMask, testBit_subfieldMask]
  rcases Nat.lt_or_ge s1 s2 with h | h
  · have h1 : (s1 + 1) * rho ≤ s2 * rho := Nat.mul_le_mul_right rho (by omega)
    rw [Nat.add_one_mul] at h1
    by_cases hi : s1 * rho ≤ i ∧ i < s1 * rho + rho
    · have : ¬ s2 * rho ≤ i := by omega
      simp [this]
    · rcases Decidable.not_and_iff_or_not.mp hi with h2 | h2 <;> simp [h2]
  · rcases Nat.lt_or_ge s2 s1 with h' | h'
    · have h1 : (s2 + 1) * rho ≤ s1 * rho := Nat.mul_le_mul_right rho (by omega)
      rw [Nat.add_one_mul] at h1
      by_cases hi : s2 * rho ≤ i ∧ i < s2 * rho + rho
      · have : ¬ s1 * rho ≤ i := by omega
        simp [this]
      · rcases Decidable.not_and_iff_or_not.mp hi with h2 | h2 <;> simp [h2]
    · omega

theorem land_or_distrib (a b m : Nat) :
    (a ||| b) &&& m = (a &&& m) ||| (b &&& m) := by
  apply Nat.eq_of_testBit_eq
  intro i
  rw [Nat.testBit_and, Nat.testBit_or, Nat.testBit_or, Nat.testBit_and,
    Nat.testBit_and]
  cases a.testBit i <;> cases b.testBit i <;> cases m.testBit i <;> rfl

theorem and_subfieldMask_eq (x s r : Nat) :
    x &&& subfieldMask s r = ((x >>> (s * r)) % 2 ^ r) <<< (s * r) := by
  apply Nat.eq_of_testBit_eq
  intro i
  rw [Nat.testBit_and, testBit_subfieldMask, Nat.testBit_shiftLeft,
    Nat.testBit_mod_two_pow, Nat.testBit_shiftRight]
  by_cases h : s * r ≤ i
  · have he : s * r + (i - s * r) = i := by omega
    have h2 : (i - s * r < r) ↔ (i < s * r + r) := by omega
    rw [he]
    by_cases h3 : i < s * r + r <;> cases h4 : x.testBit i <;>
      simp [h, h2, h3, h4]
  · simp [h]

theorem matchCount_eq_nibble (x s r : Nat) :
    matchCount x s r = countOnes ((x >>> (s * r)) % 2 ^ r) := by
  rw [matchCount, and_subfieldMask_eq, countOnes_shiftLeft]

theorem nibble_xor (x y a r : Nat) :
    ((x ^^^ y) >>> a) % 2 ^ r = ((x >>> a) % 2 ^ r) ^^^ ((y >>> a) % 2 ^ r) := by
  apply Nat.eq_of_testBit_eq
  intro i
  rw [Nat.testBit_mod_two_pow, Nat.testBit_shiftRight, Nat.testBit_xor,
    Nat.testBit_xor, Nat.testBit_mod_two_pow, Nat.testBit_mod_two_pow,
    Nat.testBit_shiftRight, Nat.testBit_shiftRight]
  by_cases h : i < r <;> simp [h]

theorem nibble_two_pow (a r b : Nat) (h1 : a ≤ b) (h2 : b < a + r) :
    ((2 ^ b) >>> a) % 2 ^ r = 2 ^ (b - a) := by
  apply Nat.eq_of_testBit_eq
  intro i
  rw [Nat.testBit_mod_two_pow, Nat.testBit_shiftRight, Nat.testBit_two_pow,
    Nat.testBit_two_pow]
  by_cases h3 : i < r
  · by_cases h4 : b - a = i <;> simp [h3, h4] <;> omega
  · have : ¬ b - a = i := by omega
    simp [h3, this]

theorem shiftLeft_inj (x y a : Nat) (h : x <<< a = y <<< a) : x = y := by
  rw [Nat.shiftLeft_eq, Nat.shiftLeft_eq] at h
  exact Nat.eq_of_mul_eq_mul_right (Nat.pos_pow_of_pos a (by omega)) h

theorem subfield_full (x s r : Nat) (h : x &&& subfieldMask s r = subfieldMask s r) :
    (x >>> (s * r)) % 2 ^ r = 2 ^ r - 1 := by
  rw [and_subfieldMask_eq] at h
  apply shiftLeft_inj _ _ (s * r)
  rw [h, subfieldMask, Nat.one_shiftLeft]

theorem subfield_zero (x s r : Nat) (h : x &&& subfieldMask s r = 0) :
    (x >>> (s * r)) % 2 ^ r = 0 := by
  rw [and_subfieldMask_eq] at h
  apply shiftLeft_inj _ _ (s * r)
  rw [h]
  rw [Nat.shiftLeft_eq, Nat.zero_mul]

/-- C4: for a group verified at redundancy `rho = 4` (majority threshold 3),
with the ground-truth responder set fixed (the tag's sub-field of the ideal
superimposed bitmap is the full pattern for a responding tag and empty for a
non-responding one) and a noise mask clean inside the tag's 4-bit sub-field:
flipping any single noise bit inside the sub-field does not change the tag's
presence verdict `3 ≤ match_count`, and flipping exactly two distinct bits
inside the sub-field of a responding tag flips its verdict from present to
missing. -/
theorem C4_majority_vote_tolerance (ideal noise s : Nat)
    (hn : noise &&& subfieldMask s 4 = 0) :
    (ideal &&& subfieldMask s 4 = subfieldMask s 4 →
      (3 ≤ matchCount (ideal ^^^ noise) s 4) ∧
      (∀ b, s * 4 ≤ b → b < s * 4 + 4 →
        3 ≤ matchCount (ideal ^^^ (noise ^^^ 2 ^ b)) s 4) ∧
      (∀ b1 b2, s * 4 ≤ b1 → b1 < s * 4 + 4 → s * 4 ≤ b2 → b2 < s * 4 + 4 →
        b1 ≠ b2 →
        ¬ 3 ≤ matchCount (ideal ^^^ (noise ^^^ 2 ^ b1 ^^^ 2 ^ b2)) s 4)) ∧
    (ideal &&& subfieldMask s 4 = 0 →
      (¬ 3 ≤ matchCount (ideal ^^^ noise) s 4) ∧
      (∀ b, s * 4 ≤ b → b < s * 4 + 4 →
        ¬ 3 ≤ matchCount (ideal ^^^ (noise ^^^ 2 ^ b)) s 4)) := by
  have hnN : (noise >>> (s * 4)) % 2 ^ 4 = 0 := subfield_zero _ _ _ hn
  constructor
  · intro hI
    have hnI : (ideal >>> (s * 4)) % 2 ^ 4 = 2 ^ 4 - 1 := subfield_full _ _ _ hI
    refine ⟨?_, ?_, ?_⟩
    · rw [matchCount_eq_nibble, nibble_xor, hnI, hnN]
      decide
    · intro b hb1 hb2
      obtain ⟨j, hj4, rfl⟩ : ∃ j, j < 4 ∧ b = s * 4 + j :=
        ⟨b - s * 4, by omega, by omega⟩
      rw [matchCount_eq_nibble, nibble_xor, nibble_xor, hnI, hnN,
        nibble_two_pow (s * 4) 4 _ (by omega) (by omega)]
      have hjj : s * 4 + j - s * 4 = j := by omega
      rw [hjj]
      interval_cases j <;> decide
    · intro b1 b2 h11 h12 h21 h22 hne
      obtain ⟨j1, hj14, rfl⟩ : ∃ j, j < 4 ∧ b1 = s * 4 + j :=
        ⟨b1 - s * 4, by omega, by omega⟩
      obtain ⟨j2, hj24, rfl⟩ : ∃ j, j < 4 ∧ b2 = s * 4 + j :=
        ⟨b2 - s * 4, by omega, by omega⟩
      have hne2 : j1 ≠ j2 := by omega
      rw [matchCount_eq_nibble, nibble_xor, nibble_xor, nibble_xor, hnI, hnN,
        nibble_two_pow (s * 4) 4 _ (by omega) (by omega),
        nibble_two_pow (s * 4) 4 _ (by omega) (by omega)]
      have hjj1 : s * 4 + j1 - s * 4 = j1 := by omega
      have hjj2 : s * 4 + j2 - s * 4 = j2 := by omega
      rw [hjj1, hjj2]
      interval_cases j1 <;> interval_cases j2 <;>
        first
        | exact absurd rfl hne2
        | decide
  · intro hI
    have hnI : (ideal >>> (s * 4)) % 2 ^ 4 = 0 := subfield_zero _ _ _ hI
    constructor
    · rw [matchCount_eq_nibble, nibble_xor, hnI, hnN]
      decide
    · intro b hb1 hb2
      obtain ⟨j, hj4, rfl⟩ : ∃ j, j < 4 ∧ b = s * 4 + j :=
        ⟨b - s * 4, by omega, by omega⟩
      rw [matchCount_eq_nibble, nibble_xor, nibble_xor, hnI, hnN,
        nibble_two_pow (s * 4) 4 _ (by omega) (by omega)]
      have hjj : s * 4 + j - s * 4 = j := by omega
      rw [hjj]
      interval_cases j <;> decide

/-- Witness for `C4_majority_vote_tolerance` at slot 1, clean noise, with a
responding tag's full pattern: one in-field flip keeps the verdict, two flips
drop it, and a non-responding tag stays missing. -/
theorem C4_majority_vote_tolerance_witness :
    (0 &&& LODS.subfieldMask 1 4 = 0) ∧
    (3 ≤ LODS.matchCount (LODS.subfieldMask 1 4 ^^^ (0 ^^^ 2 ^ 5)) 1 4) ∧
    ¬ 3 ≤ LODS.matchCount (LODS.subfieldMask 1 4 ^^^ (0 ^^^ 2 ^ 5 ^^^ 2 ^ 6)) 1 4 := by
  refine ⟨by decide, ?_, ?_⟩
  · exact (C4_majority_vote_tolerance (LODS.subfieldMask 1 4) 0 1 (by decide)).1
      (by decide) |>.2.1 5 (by decide) (by decide)
  · exact (C4_majority_vote_tolerance (LODS.subfieldMask 1 4) 0 1 (by decide)).1
      (by decide) |>.2.2 5 6 (by decide) (by decide) (by decide) (by decide)
      (by decide)

/-- C6: the perfect-seed search over a single-tag group always succeeds and
returns seed 0, for every positive modulus: a lone value cannot collide with
itself under `(value XOR seed) mod number_of_subslots`. -/
theorem C6_singleton_seed (v m : Nat) (_hm : 0 < m) :
    findPerfectSeed [v] m = some 0 := by
  rw [findPerfectSeed, List.range_succ_eq_map]
  simp [findSeedAux, hasDup]

/-- Witness for `C6_singleton_seed` at `v = 7`, `m = 4`. -/
theorem C6_singleton_seed_witness :
    0 < 4 ∧ LODS.findPerfectSeed [7] 4 = some 0 :=
  ⟨by decide, C6_singleton_seed 7 4 (by decide)⟩

/-- C8 (code bug): as soon as burst erasure or jitter is configured and a
non-idle slot with a positive expected reply length is processed, the
impairment stage of `run_high_fidelity_simulation` evaluates the undefined
name `supports_phy` (`framework.py` line 259) and Python raises `NameError`
instead of consulting `algorithm.supports_phy_impairments` as the module's own
interface documentation (lines 104-107) describes.  Evaluated here at the
concrete failing input: burst length 1, a successful slot with an 8-bit
expected reply. -/
theorem C8_burst_erasure_name_error :
    injectImpairments { burstErasureLen := 1 } {} 8 PacketTypeL.SUCCESS
      (some [5]) =
      Except.error "NameError: name 'supports_phy' is not defined" := by
  rfl

theorem verifyFold_present (received thr : Nat) (ctx : List CtxItem) :
    ∀ acc : VerifyAcc,
      (ctx.foldl (verifyItem received thr) acc).present
        = acc.present ∪
          ((ctx.filter
            (fun it => decide (thr ≤ matchCount received it.slot it.rho))).map
              (·.epc)).toFinset := by
  induction ctx with
  | nil => intro acc; simp
  | cons hd tl ih =>
    intro acc
    rw [List.foldl_cons, List.filter_cons]
    by_cases h : thr ≤ matchCount received hd.slot hd.rho
    · rw [ih]
      simp [verifyItem, h, Finset.union_insert]
    · rw [ih]
      simp [verifyItem, h]

theorem verifyFold_missing (received thr : Nat) (ctx : List CtxItem) :
    ∀ acc : VerifyAcc,
      (ctx.foldl (verifyItem received thr) acc).missing
        = acc.missing ∪
          ((ctx.filter
            (fun it => decide (matchCount received it.slot it.rho < thr))).map
              (·.epc)).toFinset := by
  induction ctx with
  | nil => intro acc; simp
  | cons hd tl ih =>
    intro acc
    rw [List.foldl_cons, List.filter_cons]
    by_cases h : thr ≤ matchCount received hd.slot hd.rho
    · have h2 : ¬ matchCount received hd.slot hd.rho < thr := by omega
      rw [ih]
      simp [verifyItem, h, h2]
    · have h2 : matchCount received hd.slot hd.rho < thr := by omega
      rw [ih]
      simp [verifyItem, h, h2, Finset.union_insert]

theorem verifyFold_errorCnt (received thr : Nat) (ctx : List CtxItem) :
    ∀ acc : VerifyAcc,
      (ctx.foldl (verifyItem received thr) acc).errorCnt
        = acc.errorCnt +
          ctx.countP
            (fun it => decide (matchCount received it.slot it.rho < max it.rho thr)) := by
  induction ctx with
  | nil => intro acc; simp
  | cons hd tl ih =>
    intro acc
    rw [List.foldl_cons, List.countP_cons, ih]
    by_cases h : thr ≤ matchCount received hd.slot hd.rho
    · by_cases h2 : matchCount received hd.slot hd.rho < hd.rho
      · have h3 : matchCount received hd.slot hd.rho < max hd.rho thr := by omega
        simp [verifyItem, h, h2, h3]
        omega
      · have h3 : ¬ matchCount received hd.slot hd.rho < max hd.rho thr := by omega
        simp [verifyItem, h, h2, h3]
    · have h3 : matchCount received hd.slot hd.rho < max hd.rho thr := by omega
      simp [verifyItem, h, h3]
      omega

theorem matchCount_zero (s r : Nat) : matchCount 0 s r = 0 := by
  rw [matchCount, Nat.zero_and, countOnes_zero]

theorem verifyPhase_eq (ctx : List CtxItem) (prev : SlotResultL) (p q : Finset Nat) :
    verifyPhase ctx prev p q =
      ((ctx.foldl (verifyItem
          (idealBitmap ctx (actualResponders prev) ^^^ prev.channelNoiseMask)
          (if 4 ≤ (ctx.headD ⟨0, 0, 0⟩).rho then 3 else (ctx.headD ⟨0, 0, 0⟩).rho))
          ⟨p, q, 0, false⟩).present,
       (ctx.foldl (verifyItem
          (idealBitmap ctx (actualResponders prev) ^^^ prev.channelNoiseMask)
          (if 4 ≤ (ctx.headD ⟨0, 0, 0⟩).rho then 3 else (ctx.headD ⟨0, 0, 0⟩).rho))
          ⟨p, q, 0, false⟩).missing,
       (ctx.foldl (verifyItem
          (idealBitmap ctx (actualResponders prev) ^^^ prev.channelNoiseMask)
          (if 4 ≤ (ctx.headD ⟨0, 0, 0⟩).rho then 3 else (ctx.headD ⟨0, 0, 0⟩).rho))
          ⟨p, q, 0, false⟩).errorCnt,
       ctx.length,
       (ctx.foldl (verifyItem
          (idealBitmap ctx (actualResponders prev) ^^^ prev.channelNoiseMask)
          (if 4 ≤ (ctx.headD ⟨0, 0, 0⟩).rho then 3 else (ctx.headD ⟨0, 0, 0⟩).rho))
          ⟨p, q, 0, false⟩).errorFlag) := rfl

theorem phase1_nil (s : AlgState) (prev : SlotResultL) (h : s.lastSentContext = []) :
    phase1 s prev = (s, false) := by
  unfold phase1
  rw [h]

theorem phase1_cons (s : AlgState) (prev : SlotResultL) (c : CtxItem)
    (cs : List CtxItem) (h : s.lastSentContext = c :: cs) :
    phase1 s prev =
      ({ s with
          verifiedPresent :=
            (verifyPhase s.lastSentContext prev s.verifiedPresent s.verifiedMissing).1
          verifiedMissing :=
            (verifyPhase s.lastSentContext prev s.verifiedPresent s.verifiedMissing).2.1
          currentRho :=
            if s.isAdaptive && decide (0 <
                (verifyPhase s.lastSentContext prev s.verifiedPresent s.verifiedMissing).2.2.2.1) then
              if 10 * (verifyPhase s.lastSentContext prev s.verifiedPresent s.verifiedMissing).2.2.1 ≤
                  3 * (verifyPhase s.lastSentContext prev s.verifiedPresent s.verifiedMissing).2.2.2.1
              then 2 else 4
            else s.currentRho
          lastSentContext := [] },
        (verifyPhase s.lastSentContext prev s.verifiedPresent s.verifiedMissing).2.2.2.2) := by
  conv_lhs => rw [phase1]
  rw [h]

theorem getNextCommand_fst_base (s : AlgState) (prev : SlotResultL) :
    ((getNextCommand s prev).1).sortedTags = ((phase1 s prev).1).sortedTags ∧
    ((getNextCommand s prev).1).totalTags = ((phase1 s prev).1).totalTags ∧
    ((getNextCommand s prev).1).maxGroupSize = ((phase1 s prev).1).maxGroupSize ∧
    ((getNextCommand s prev).1).isAdaptive = ((phase1 s prev).1).isAdaptive ∧
    ((getNextCommand s prev).1).maxPayloadBit = ((phase1 s prev).1).maxPayloadBit ∧
    ((getNextCommand s prev).1).targetRho = ((phase1 s prev).1).targetRho ∧
    ((getNextCommand s prev).1).currentRho = ((phase1 s prev).1).currentRho ∧
    ((getNextCommand s prev).1).verifiedPresent = ((phase1 s prev).1).verifiedPresent ∧
    ((getNextCommand s prev).1).verifiedMissing = ((phase1 s prev).1).verifiedMissing := by
  rw [getNextCommand]
  dsimp only
  split <;> exact ⟨rfl, rfl, rfl, rfl, rfl, rfl, rfl, rfl, rfl⟩

theorem phase1_fst_base (s : AlgState) (prev : SlotResultL) :
    ((phase1 s prev).1).sortedTags = s.sortedTags ∧
    ((phase1 s prev).1).totalTags = s.totalTags ∧
    ((phase1 s prev).1).maxGroupSize = s.maxGroupSize ∧
    ((phase1 s prev).1).isAdaptive = s.isAdaptive ∧
    ((phase1 s prev).1).maxPayloadBit = s.maxPayloadBit ∧
    ((phase1 s prev).1).targetRho = s.targetRho ∧
    ((phase1 s prev).1).cursor = s.cursor ∧
    ((phase1 s prev).1).isRunning = s.isRunning := by
  unfold phase1
  split <;> exact ⟨rfl, rfl, rfl, rfl, rfl, rfl, rfl, rfl⟩

theorem idealBitmap_resp_nil (ctx : List CtxItem) : idealBitmap ctx [] = 0 := by
  rw [idealBitmap]
  induction ctx with
  | nil => rfl
  | cons hd tl ih =>
    rw [List.foldl_cons]
    have h0 : (if ([] : List Nat).contains hd.epc then 0 ||| subfieldMask hd.slot hd.rho else 0) = 0 := by
      simp
    rw [h0] at *
    exact ih

/-- C10: when the previous slot's status is IDLE, Phase 1 of
`get_next_command` treats the ground-truth responder list as empty regardless
of the identifiers recorded in the result, and — with the zero noise mask that
the kernel always attaches to an idle result — confirms every tag of the
previous group as missing in that single step, leaving the present set
untouched. -/
theorem C10_idle_verification (ctx : List CtxItem) (ids : List Nat)
    (rd : Option (List Nat)) (m : Nat) (ei : Option ExtraInfo)
    (p q : Finset Nat)
    (hrho : 1 ≤ (ctx.headD ⟨0, 0, 0⟩).rho) :
    verifyPhase ctx ⟨PacketTypeL.IDLE, ids, rd, m, ei⟩ p q
      = verifyPhase ctx ⟨PacketTypeL.IDLE, [], rd, m, ei⟩ p q
    ∧ (m = 0 →
        (verifyPhase ctx ⟨PacketTypeL.IDLE, ids, rd, m, ei⟩ p q).1 = p ∧
        ∀ it ∈ ctx, it.epc ∈ (verifyPhase ctx ⟨PacketTypeL.IDLE, ids, rd, m, ei⟩ p q).2.1) := by
  constructor
  · rfl
  · rintro rfl
    have hthr : 1 ≤ (if 4 ≤ (ctx.headD ⟨0, 0, 0⟩).rho then 3
        else (ctx.headD ⟨0, 0, 0⟩).rho) := by
      split <;> omega
    have hrecv : idealBitmap ctx (actualResponders ⟨PacketTypeL.IDLE, ids, rd, 0, ei⟩) ^^^
        (SlotResultL.mk PacketTypeL.IDLE ids rd 0 ei).channelNoiseMask = 0 := by
      have h1 : actualResponders ⟨PacketTypeL.IDLE, ids, rd, 0, ei⟩ = [] := rfl
      rw [h1, idealBitmap_resp_nil]
      simp
    constructor
    · rw [verifyPhase_eq]
      dsimp only
      rw [hrecv, verifyFold_present]
      have hfil : (ctx.filter (fun it =>
          decide ((if 4 ≤ (ctx.headD ⟨0, 0, 0⟩).rho then 3
            else (ctx.headD ⟨0, 0, 0⟩).rho) ≤ matchCount 0 it.slot it.rho))) = [] := by
        rw [List.filter_eq_nil_iff]
        intro it2 hit2
        rw [matchCount_zero]
        intro hcon
        rw [decide_eq_true_eq] at hcon
        omega
      rw [hfil]
      simp
    · intro it hit
      rw [verifyPhase_eq]
      dsimp only
      rw [hrecv, verifyFold_missing]
      have hfil : (ctx.filter (fun it =>
          decide (matchCount 0 it.slot it.rho <
            (if 4 ≤ (ctx.headD ⟨0, 0, 0⟩).rho then 3
              else (ctx.headD ⟨0, 0, 0⟩).rho)))) = ctx := by
        rw [List.filter_eq_self]
        intro it2 hit2
        rw [matchCount_zero, decide_eq_true_eq]
        omega
      rw [hfil]
      simp only [Finset.mem_union, List.mem_toFinset, List.mem_map]
      right
      exact ⟨it, hit, rfl⟩

/-- Witness for `C10_idle_verification`: a two-tag context at `rho = 4` with a
stale identifier list in the idle result; both tags land in the missing set. -/
theorem C10_idle_verification_witness :
    (1 ≤ (([⟨5, 0, 4⟩, ⟨9, 1, 4⟩] : List CtxItem).headD ⟨0, 0, 0⟩).rho) ∧
    (5 ∈ (verifyPhase [⟨5, 0, 4⟩, ⟨9, 1, 4⟩] ⟨PacketTypeL.IDLE, [5, 9], none, 0, none⟩ ∅ ∅).2.1 ∧
     9 ∈ (verifyPhase [⟨5, 0, 4⟩, ⟨9, 1, 4⟩] ⟨PacketTypeL.IDLE, [5, 9], none, 0, none⟩ ∅ ∅).2.1) := by
  refine ⟨by decide, ?_, ?_⟩
  · exact ((C10_idle_verification [⟨5, 0, 4⟩, ⟨9, 1, 4⟩] [5, 9] none 0 none ∅ ∅
      (by decide)).2 rfl).2 ⟨5, 0, 4⟩ (by simp)
  · exact ((C10_idle_verification [⟨5, 0, 4⟩, ⟨9, 1, 4⟩] [5, 9] none 0 none ∅ ∅
      (by decide)).2 rfl).2 ⟨9, 1, 4⟩ (by simp)

/-- Exactness of the integer form of the tolerance test: for a positive check
count, `error_cnt / total_checks <= 0.3` as a comparison of exact rationals is
`10 * error_cnt <= 3 * total_checks`. -/
theorem tolerance_cmp_iff (c t : Nat) (ht : 0 < t) :
    (10 * c ≤ 3 * t) ↔ ((c : ℚ) / (t : ℚ) ≤ 3 / 10) := by
  have ht2 : (0 : ℚ) < (t : ℚ) := by exact_mod_cast ht
  rw [div_le_div_iff₀ ht2 (by norm_num)]
  constructor
  · intro h
    have : (10 * c : ℚ) ≤ (3 * t : ℚ) := by exact_mod_cast h
    linarith
  · intro h
    have : (10 * c : ℚ) ≤ (3 * t : ℚ) := by linarith
    exact_mod_cast this

/-- C5: in adaptive mode, after verifying a non-empty group with uniform
redundancy, the redundancy used for the next group is the fast value 2 when
the measured fraction of imperfect checks (tags confirmed missing, or
confirmed present with fewer than `rho` set bits — exactly the checks whose
sub-field match count falls below `rho`) is at most the tolerance threshold
0.30, and the robust value 4 otherwise: a deterministic function of that
fraction alone.  The second conjunct restates the integer tolerance test as
the fraction comparison of the claim. -/
theorem C5_adaptation (s : AlgState) (prev : SlotResultL) (c : CtxItem)
    (cs : List CtxItem) (hctx : s.lastSentContext = c :: cs)
    (had : s.isAdaptive = true)
    (hrho : ∀ it ∈ s.lastSentContext, it.rho = c.rho) :
    (((getNextCommand s prev).1).currentRho =
      (if 10 * (s.lastSentContext.countP (fun it =>
            decide (matchCount
              (idealBitmap s.lastSentContext (actualResponders prev) ^^^
                prev.channelNoiseMask) it.slot it.rho < it.rho))) ≤
          3 * s.lastSentContext.length then 2 else 4)) ∧
    ((10 * (s.lastSentContext.countP (fun it =>
          decide (matchCount
            (idealBitmap s.lastSentContext (actualResponders prev) ^^^
              prev.channelNoiseMask) it.slot it.rho < it.rho))) ≤
        3 * s.lastSentContext.length) ↔
      (((s.lastSentContext.countP (fun it =>
          decide (matchCount
            (idealBitmap s.lastSentContext (actualResponders prev) ^^^
              prev.channelNoiseMask) it.slot it.rho < it.rho))) : ℚ) /
        (s.lastSentContext.length : ℚ) ≤ 3 / 10)) := by
  have hlen : 0 < s.lastSentContext.length := by rw [hctx]; simp
  constructor
  · rw [(getNextCommand_fst_base s prev).2.2.2.2.2.2.1, phase1_cons s prev c cs hctx]
    dsimp only
    rw [verifyPhase_eq]
    dsimp only
    rw [verifyFold_errorCnt]
    have hhead : ((s.lastSentContext).headD ⟨0, 0, 0⟩).rho = c.rho := by rw [hctx]; rfl
    have hcntP : (s.lastSentContext.countP (fun it =>
        decide (matchCount
          (idealBitmap s.lastSentContext (actualResponders prev) ^^^
            prev.channelNoiseMask) it.slot it.rho <
          max it.rho (if 4 ≤ ((s.lastSentContext).headD ⟨0, 0, 0⟩).rho then 3
            else ((s.lastSentContext).headD ⟨0, 0, 0⟩).rho))))
        = (s.lastSentContext.countP (fun it =>
            decide (matchCount
              (idealBitmap s.lastSentContext (actualResponders prev) ^^^
                prev.channelNoiseMask) it.slot it.rho < it.rho))) := by
      apply List.countP_congr
      intro it hit
      have h1 : it.rho = c.rho := hrho it hit
      rw [hhead]
      have h2 : max it.rho (if 4 ≤ c.rho then 3 else c.rho) = it.rho := by
        rw [h1]; split <;> omega
      rw [h2]
    rw [hcntP, had]
    have h0 : (decide (0 < s.lastSentContext.length)) = true := by
      simpa using hlen
    rw [h0]
    simp
  · exact tolerance_cmp_iff _ _ hlen

/-- Witness for `C5_adaptation`: one group of two tags at `rho = 4`, idle
previous slot, zero noise — both checks imperfect, fraction 1 > 3/10, so the
next redundancy is the robust value 4. -/
theorem C5_adaptation_witness :
    ((getNextCommand
        { maxGroupSize := 128, targetRho := 4, isAdaptive := true,
          maxPayloadBit := 256, currentRho := 2, sortedTags := [5, 9],
          totalTags := 2, cursor := 2, isRunning := true,
          lastSentContext := [⟨5, 0, 4⟩, ⟨9, 1, 4⟩],
          verifiedPresent := ∅, verifiedMissing := ∅ }
        ⟨PacketTypeL.IDLE, [], none, 0, none⟩).1).currentRho = 4 := by
  rw [(C5_adaptation _ ⟨PacketTypeL.IDLE, [], none, 0, none⟩ ⟨5, 0, 4⟩ [⟨9, 1, 4⟩]
    rfl rfl (by decide)).1]
  decide

theorem natToBits_length (w : Nat) : ∀ n, (natToBits w n).length = w := by
  induction w with
  | zero => intro n; rfl
  | succ w ih => intro n; simp [natToBits, ih]

theorem natToBits_take (w : Nat) : ∀ j n, j ≤ w →
    (natToBits w n).take j = natToBits j (n / 2 ^ (w - j)) := by
  induction w with
  | zero =>
    intro j n h
    have : j = 0 := by omega
    subst this; rfl
  | succ w ih =>
    intro j n h
    rcases Nat.lt_or_ge j (w + 1) with hj | hj
    · have hjw : j ≤ w := by omega
      show (natToBits w (n / 2) ++ [n % 2 == 1]).take j = _
      rw [List.take_append_eq_append_take]
      have hz : j - (natToBits w (n / 2)).length = 0 := by
        rw [natToBits_length]; omega
      rw [hz, List.take_zero, List.append_nil, ih j (n / 2) hjw]
      have hp : (2 : Nat) * 2 ^ (w - j) = 2 ^ (w + 1 - j) := by
        rw [← pow_succ']
        congr 1
        omega
      rw [Nat.div_div_eq_div_mul, hp]
    · have hj2 : j = w + 1 := by omega
      subst hj2
      have h0 : w + 1 - (w + 1) = 0 := by omega
      rw [h0, pow_zero, Nat.div_one]
      exact List.take_of_length_le (by rw [natToBits_length])

theorem natToBits_inj (w : Nat) : ∀ x y, x < 2 ^ w → y < 2 ^ w →
    natToBits w x = natToBits w y → x = y := by
  induction w with
  | zero =>
    intro x y hx hy _
    simp only [pow_zero] at hx hy
    omega
  | succ w ih =>
    intro x y hx hy h
    have h' : natToBits w (x / 2) ++ [x % 2 == 1] =
        natToBits w (y / 2) ++ [y % 2 == 1] := h
    obtain ⟨h1, h2⟩ := List.append_inj' h' (by rfl)
    have hp : (2 : Nat) ^ (w + 1) = 2 ^ w * 2 := pow_succ 2 w
    have hd : x / 2 = y / 2 := ih _ _ (by omega) (by omega) h1
    have hb : x % 2 = y % 2 := by
      rcases Nat.mod_two_eq_zero_or_one x with hx2 | hx2 <;>
        rcases Nat.mod_two_eq_zero_or_one y with hy2 | hy2 <;> simp_all
    omega

theorem isPre_take (p l : List Bool) : p.isPrefixOf l = true ↔ p = l.take p.length := by
  rw [ List.isPrefixOf_iff_prefix]
  exact List.prefix_iff_eq_take

theorem isPre_refl (l : List Bool) : l.isPrefixOf l = true := by
  rw [isPre_take, List.take_length]

theorem isPre_length_le (p l : List Bool) (h : p.isPrefixOf l = true) :
    p.length ≤ l.length := by
  rw [isPre_take] at h
  have h2 := congrArg List.length h
  rw [List.length_take] at h2
  omega

theorem isPre_full (p l : List Bool) (hlen : p.length = l.length)
    (h : p.isPrefixOf l = true) : p = l := by
  rw [isPre_take] at h
  rw [h, hlen, List.take_length]

theorem pre_bin96_iff (p : List Bool) (v : Nat) (hp : p.length ≤ 96) :
    (p.isPrefixOf (bin96 v) = true) ↔
      p = natToBits p.length (v / 2 ^ (96 - p.length)) := by
  rw [isPre_take, bin96, natToBits_take 96 p.length v hp]

/-- Fixed-width binary strings with a common prefix form an interval in
numeric order: a prefix shared by `a` and `c` is shared by anything between
them. -/
theorem pre_bin96_interval (p : List Bool) (a b c : Nat) (hab : a ≤ b)
    (hbc : b ≤ c) (hc : c < 2 ^ 96) (hpa : p.isPrefixOf (bin96 a) = true)
    (hpc : p.isPrefixOf (bin96 c) = true) :
    p.isPrefixOf (bin96 b) = true := by
  have hp : p.length ≤ 96 := by
    have h2 := isPre_length_le p (bin96 a) hpa
    rwa [bin96, natToBits_length] at h2
  have hsplit : (2 : Nat) ^ 96 = 2 ^ (96 - p.length) * 2 ^ p.length := by
    rw [← pow_add]
    congr 1
    omega
  have hca : a / 2 ^ (96 - p.length) < 2 ^ p.length := by
    apply Nat.div_lt_of_lt_mul
    rw [← hsplit]
    omega
  have hcc : c / 2 ^ (96 - p.length) < 2 ^ p.length := by
    apply Nat.div_lt_of_lt_mul
    rw [← hsplit]
    omega
  have ha' := (pre_bin96_iff p a hp).mp hpa
  have hc' := (pre_bin96_iff p c hp).mp hpc
  have heq : a / 2 ^ (96 - p.length) = c / 2 ^ (96 - p.length) :=
    natToBits_inj p.length _ _ hca hcc (by rw [← ha', ← hc'])
  have hb1 : a / 2 ^ (96 - p.length) ≤ b / 2 ^ (96 - p.length) :=
    Nat.div_le_div_right hab
  have hb2 : b / 2 ^ (96 - p.length) ≤ c / 2 ^ (96 - p.length) :=
    Nat.div_le_div_right hbc
  have hbeq : b / 2 ^ (96 - p.length) = a / 2 ^ (96 - p.length) := by omega
  rw [pre_bin96_iff p b hp, hbeq, ← ha']

theorem getLcp_pre_left (x : List Bool) : ∀ y, (getLcp x y).isPrefixOf x = true := by
  induction x with
  | nil => intro y; rfl
  | cons a as ih =>
    intro y
    cases y with
    | nil => rfl
    | cons b bs =>
      rw [getLcp]
      by_cases h : a = b
      · rw [if_pos h]
        show (a == a && (getLcp as bs).isPrefixOf as) = true
        simp [ih bs]
      · rw [if_neg h]; rfl

theorem getLcp_pre_right (x : List Bool) : ∀ y, (getLcp x y).isPrefixOf y = true := by
  induction x with
  | nil => intro y; cases y <;> rfl
  | cons a as ih =>
    intro y
    cases y with
    | nil => rfl
    | cons b bs =>
      rw [getLcp]
      by_cases h : a = b
      · rw [if_pos h]
        show (a == b && (getLcp as bs).isPrefixOf bs) = true
        simp [h, ih bs]
      · rw [if_neg h]; rfl

theorem sorted_getD_le (vals : List Nat) (hs : vals.Sorted (· < ·)) (i j : Nat)
    (hij : i ≤ j) (hj : j < vals.length) : vals.getD i 0 ≤ vals.getD j 0 := by
  rcases Nat.eq_or_lt_of_le hij with rfl | hlt
  · exact le_refl _
  · have hi : i < vals.length := by omega
    rw [List.getD_eq_getElem _ _ hi, List.getD_eq_getElem _ _ hj]
    have h2 := List.pairwise_iff_get.mp hs ⟨i, hi⟩ ⟨j, hj⟩ hlt
    simp only [List.get_eq_getElem] at h2
    exact le_of_lt h2

theorem sorted_getD_lt (vals : List Nat) (hs : vals.Sorted (· < ·)) (i j : Nat)
    (hij : i < j) (hj : j < vals.length) : vals.getD i 0 < vals.getD j 0 := by
  have hi : i < vals.length := by omega
  rw [List.getD_eq_getElem _ _ hi, List.getD_eq_getElem _ _ hj]
  have h2 := List.pairwise_iff_get.mp hs ⟨i, hi⟩ ⟨j, hj⟩ hij
  simpa using h2

theorem getD_mem (vals : List Nat) (i : Nat) (hi : i < vals.length) :
    vals.getD i 0 ∈ vals := by
  rw [List.getD_eq_getElem _ _ hi]
  exact List.getElem_mem hi

/-- Correctness of the inner slice loop on a strictly sorted population: the
returned group is non-empty, no larger than the loop bound (or 1 for the
fall-through), its mask is a prefix of every group member, and no tag from the
group's end to the end of the population matches the mask. -/
theorem slcLoop_spec (vals : List Nat) (hs : vals.Sorted (· < ·))
    (hb : ∀ v ∈ vals, v < 2 ^ 96) (start : Nat) :
    ∀ k, start + k < vals.length →
      1 ≤ (slcLoop vals start k).1 ∧ (slcLoop vals start k).1 ≤ max k 1 ∧
      (∀ i, start ≤ i → i < start + (slcLoop vals start k).1 →
        (slcLoop vals start k).2.isPrefixOf (bin96 (vals.getD i 0)) = true) ∧
      (∀ j, start + (slcLoop vals start k).1 ≤ j → j < vals.length →
        (slcLoop vals start k).2.isPrefixOf (bin96 (vals.getD j 0)) = false) := by
  intro k
  induction k with
  | zero =>
    intro hk
    have h0 : slcLoop vals start 0 = (1, bin96 (vals.getD start 0)) := rfl
    rw [h0]
    refine ⟨le_refl 1, by omega, ?_, ?_⟩
    · intro i hi1 hi2
      have : i = start := by omega
      subst this
      exact isPre_refl _
    · intro j hj1 hj2
      cases hc : (bin96 (vals.getD start 0)).isPrefixOf (bin96 (vals.getD j 0)) with
      | false => rfl
      | true =>
        exfalso
        have hlen : (bin96 (vals.getD start 0)).length = (bin96 (vals.getD j 0)).length := by
          rw [bin96, bin96, natToBits_length, natToBits_length]
        have heq := isPre_full _ _ hlen hc
        have hv : vals.getD start 0 = vals.getD j 0 := by
          apply natToBits_inj 96
          · exact hb _ (getD_mem vals start (by omega))
          · exact hb _ (getD_mem vals j hj2)
          · exact heq
        have hlt : vals.getD start 0 < vals.getD j 0 :=
          sorted_getD_lt vals hs start j (by omega) hj2
        omega
  | succ k ih =>
    intro hk
    by_cases hout : (getLcp (bin96 (vals.getD start 0))
        (bin96 (vals.getD (start + (k + 1) - 1) 0))).isPrefixOf
        (bin96 (vals.getD (start + (k + 1)) 0)) = true
    · have hstep : slcLoop vals start (k + 1) = slcLoop vals start k := by
        rw [slcLoop]
        simp only [hout]
        rfl
      rw [hstep]
      have hk2 : start + k < vals.length := by omega
      obtain ⟨a1, a2, a3, a4⟩ := ih hk2
      refine ⟨a1, le_trans a2 ?_, a3, a4⟩
      · have h1 : k ≤ max (k + 1) 1 := le_trans (by omega) (Nat.le_max_left _ _)
        have h2 : 1 ≤ max (k + 1) 1 := Nat.le_max_right _ _
        exact max_le h1 h2
    · have hstep : slcLoop vals start (k + 1) =
          (k + 1, getLcp (bin96 (vals.getD start 0))
            (bin96 (vals.getD (start + (k + 1) - 1) 0))) := by
        rw [slcLoop]
        simp only [Bool.not_eq_true] at hout
        simp only [hout]
        rfl
      rw [hstep]
      refine ⟨by omega, by omega, ?_, ?_⟩
      · intro i hi1 hi2
        dsimp only at hi2 ⊢
        have hidx : start + (k + 1) - 1 = start + k := by omega
        rw [hidx]
        apply pre_bin96_interval _ (vals.getD start 0) (vals.getD i 0)
            (vals.getD (start + k) 0)
        · exact sorted_getD_le vals hs start i hi1 (by omega)
        · exact sorted_getD_le vals hs i (start + k) (by omega) (by omega)
        · exact hb _ (getD_mem vals (start + k) (by omega))
        · exact getLcp_pre_left _ _
        · rw [← hidx]; exact getLcp_pre_right _ _
      · intro j hj1 hj2
        dsimp only at hj1 ⊢
        cases hc : (getLcp (bin96 (vals.getD start 0))
            (bin96 (vals.getD (start + (k + 1) - 1) 0))).isPrefixOf
            (bin96 (vals.getD j 0)) with
        | false => rfl
        | true =>
          exfalso
          apply hout
          apply pre_bin96_interval _ (vals.getD (start + (k + 1) - 1) 0)
              (vals.getD (start + (k + 1)) 0) (vals.getD j 0)
          · exact sorted_getD_le vals hs _ _ (by omega) (by omega)
          · exact sorted_getD_le vals hs _ _ (by omega) hj2
          · exact hb _ (getD_mem vals j hj2)
          · exact getLcp_pre_right _ _
          · exact hc

/-- Correctness of the branch structure of `_find_dynamic_slice` for a given
effective limit: covers both the final-group branch and the scan loop. -/
theorem findDynamicSlice_core (vals : List Nat) (hs : vals.Sorted (· < ·))
    (hb : ∀ v ∈ vals, v < 2 ^ 96) (start limitK : Nat)
    (hst : start < vals.length) (hlim : limitK ≤ vals.length - start) :
    1 ≤ (if vals.length ≤ start + limitK then
        (limitK, getLcp (bin96 (vals.getD start 0))
          (bin96 (vals.getD (start + limitK - 1) 0)))
      else slcLoop vals start limitK).1 ∧
    (if vals.length ≤ start + limitK then
        (limitK, getLcp (bin96 (vals.getD start 0))
          (bin96 (vals.getD (start + limitK - 1) 0)))
      else slcLoop vals start limitK).1 ≤ max limitK 1 ∧
    (∀ i, start ≤ i → i < start + (if vals.length ≤ start + limitK then
        (limitK, getLcp (bin96 (vals.getD start 0))
          (bin96 (vals.getD (start + limitK - 1) 0)))
      else slcLoop vals start limitK).1 →
      (if vals.length ≤ start + limitK then
        (limitK, getLcp (bin96 (vals.getD start 0))
          (bin96 (vals.getD (start + limitK - 1) 0)))
      else slcLoop vals start limitK).2.isPrefixOf (bin96 (vals.getD i 0)) = true) ∧
    (∀ j, start + (if vals.length ≤ start + limitK then
        (limitK, getLcp (bin96 (vals.getD start 0))
          (bin96 (vals.getD (start + limitK - 1) 0)))
      else slcLoop vals start limitK).1 ≤ j → j < vals.length →
      (if vals.length ≤ start + limitK then
        (limitK, getLcp (bin96 (vals.getD start 0))
          (bin96 (vals.getD (start + limitK - 1) 0)))
      else slcLoop vals start limitK).2.isPrefixOf (bin96 (vals.getD j 0)) = false) := by
  by_cases hlast : vals.length ≤ start + limitK
  · rw [if_pos hlast]
    have hlim1 : 1 ≤ limitK := by omega
    refine ⟨by omega, by omega, ?_, ?_⟩
    · intro i hi1 hi2
      dsimp only at hi2 ⊢
      apply pre_bin96_interval _ (vals.getD start 0) (vals.getD i 0)
          (vals.getD (start + limitK - 1) 0)
      · exact sorted_getD_le vals hs start i hi1 (by omega)
      · exact sorted_getD_le vals hs i (start + limitK - 1) (by omega) (by omega)
      · exact hb _ (getD_mem vals (start + limitK - 1) (by omega))
      · exact getLcp_pre_left _ _
      · exact getLcp_pre_right _ _
    · intro j hj1 hj2
      dsimp only at hj1
      omega
  · rw [if_neg hlast]
    have hk : start + limitK < vals.length := by omega
    exact slcLoop_spec vals hs hb start limitK hk

/-- Correctness of `_find_dynamic_slice` on a strictly sorted population of
96-bit identifiers: the returned group is non-empty, fits the remaining
population and the limit override, its mask is a prefix of every tag in the
group, and no tag at or beyond the end of the group matches the mask. -/
theorem findDynamicSlice_spec (mgs : Nat) (vals : List Nat)
    (hs : vals.Sorted (· < ·)) (hb : ∀ v ∈ vals, v < 2 ^ 96)
    (start : Nat) (override : Option Nat) (hst : start < vals.length)
    (hover : ∀ x, override = some x → 1 ≤ x) :
    1 ≤ (findDynamicSlice mgs vals start override).1 ∧
    (findDynamicSlice mgs vals start override).1 ≤ vals.length - start ∧
    (∀ x, override = some x → (findDynamicSlice mgs vals start override).1 ≤ x) ∧
    (∀ i, start ≤ i → i < start + (findDynamicSlice mgs vals start override).1 →
      (findDynamicSlice mgs vals start override).2.isPrefixOf
        (bin96 (vals.getD i 0)) = true) ∧
    (∀ j, start + (findDynamicSlice mgs vals start override).1 ≤ j →
      j < vals.length →
      (findDynamicSlice mgs vals start override).2.isPrefixOf
        (bin96 (vals.getD j 0)) = false) := by
  have hrem : ¬ (vals.length - start = 0) := by omega
  rcases override with _ | o
  · have hunf : findDynamicSlice mgs vals start none =
        (if vals.length ≤ start + min mgs (vals.length - start) then
          (min mgs (vals.length - start),
            getLcp (bin96 (vals.getD start 0))
              (bin96 (vals.getD (start + min mgs (vals.length - start) - 1) 0)))
        else slcLoop vals start (min mgs (vals.length - start))) := by
      unfold findDynamicSlice
      rw [if_neg hrem]
    rw [hunf]
    have hlim : min mgs (vals.length - start) ≤ vals.length - start :=
      Nat.min_le_right _ _
    obtain ⟨a1, a2, a3, a4⟩ := findDynamicSlice_core vals hs hb start
      (min mgs (vals.length - start)) hst hlim
    refine ⟨a1, ?_, ?_, a3, a4⟩
    · have := Nat.le_max_left (min mgs (vals.length - start)) 1
      have h1 : max (min mgs (vals.length - start)) 1 ≤ vals.length - start := by
        apply max_le hlim
        omega
      omega
    · intro x hx
      exact absurd hx (by simp)
  · have hunf : findDynamicSlice mgs vals start (some o) =
        (if vals.length ≤ start + min (min mgs (vals.length - start)) o then
          (min (min mgs (vals.length - start)) o,
            getLcp (bin96 (vals.getD start 0))
              (bin96 (vals.getD (start + min (min mgs (vals.length - start)) o - 1) 0)))
        else slcLoop vals start (min (min mgs (vals.length - start)) o)) := by
      unfold findDynamicSlice
      rw [if_neg hrem]
    rw [hunf]
    have hlim : min (min mgs (vals.length - start)) o ≤ vals.length - start :=
      le_trans (Nat.min_le_left _ _) (Nat.min_le_right _ _)
    obtain ⟨a1, a2, a3, a4⟩ := findDynamicSlice_core vals hs hb start
      (min (min mgs (vals.length - start)) o) hst hlim
    have ho : 1 ≤ o := hover o rfl
    refine ⟨a1, ?_, ?_, a3, a4⟩
    · have h1 : max (min (min mgs (vals.length - start)) o) 1 ≤ vals.length - start := by
        apply max_le hlim
        omega
      omega
    · intro x hx
      have hxo : x = o := (Option.some.inj hx).symm
      subst hxo
      have h1 : max (min (min mgs (vals.length - start)) x) 1 ≤ x := by
        apply max_le (Nat.min_le_right _ _)
        omega
      omega

/-- C3 (counterexample to the claim as stated): over the sorted population
`{0, 1, 2}` with the cursor at 1, `_find_dynamic_slice` takes its final-group
branch and returns the 94-bit common prefix of tags 1 and 2 — but expected tag
0, which lies before the cursor, also starts with that prefix, so the
responder predicate built from the mask accepts a tag outside the selected
group.  This refutes "no expected tag outside the group — neither a tag after
the group nor a tag before the cursor — ... starts with the returned
prefix". -/
theorem C3_ghost_before_cursor :
    (findDynamicSlice 128 [0, 1, 2] 1 none).1 = 2 ∧
    (findDynamicSlice 128 [0, 1, 2] 1 none).2.isPrefixOf
      (bin96 (([0, 1, 2] : List Nat).getD 0 0)) = true := by
  decide

/-- C3 (amended): for every strictly sorted expected-tag population of 96-bit
identifiers and every cursor position, the prefix mask returned by
`_find_dynamic_slice` is matched by every tag of the contiguous group it
selects, and by no expected tag after the group; tags before the cursor may
also match the mask (`C3_ghost_before_cursor`), but they were processed by
earlier groups. -/
theorem C3_slice_mask_exact (mgs : Nat) (vals : List Nat)
    (hs : vals.Sorted (· < ·)) (hb : ∀ v ∈ vals, v < 2 ^ 96)
    (start : Nat) (override : Option Nat) (hst : start < vals.length)
    (hover : ∀ x, override = some x → 1 ≤ x) :
    (∀ i, start ≤ i → i < start + (findDynamicSlice mgs vals start override).1 →
      (findDynamicSlice mgs vals start override).2.isPrefixOf
        (bin96 (vals.getD i 0)) = true) ∧
    (∀ j, start + (findDynamicSlice mgs vals start override).1 ≤ j →
      j < vals.length →
      (findDynamicSlice mgs vals start override).2.isPrefixOf
        (bin96 (vals.getD j 0)) = false) :=
  ⟨(findDynamicSlice_spec mgs vals hs hb start override hst hover).2.2.2.1,
   (findDynamicSlice_spec mgs vals hs hb start override hst hover).2.2.2.2⟩

/-- Witness for `C3_slice_mask_exact` on the population `{0, 1, 2}` at
cursor 0. -/
theorem C3_slice_mask_exact_witness :
    (([0, 1, 2] : List Nat).Sorted (· < ·) ∧ 0 < ([0, 1, 2] : List Nat).length) ∧
    ((∀ i, 0 ≤ i → i < 0 + (findDynamicSlice 128 [0, 1, 2] 0 none).1 →
      (findDynamicSlice 128 [0, 1, 2] 0 none).2.isPrefixOf
        (bin96 (([0, 1, 2] : List Nat).getD i 0)) = true) ∧
    (∀ j, 0 + (findDynamicSlice 128 [0, 1, 2] 0 none).1 ≤ j →
      j < ([0, 1, 2] : List Nat).length →
      (findDynamicSlice 128 [0, 1, 2] 0 none).2.isPrefixOf
        (bin96 (([0, 1, 2] : List Nat).getD j 0)) = false)) :=
  ⟨⟨by decide, by decide⟩,
   C3_slice_mask_exact 128 [0, 1, 2] (by decide) (by decide) 0 none (by decide)
     (fun x hx => by cases hx)⟩

/-- Reduction of `classifySlot` for a two-or-more responder slot with capture
enabled, given the sorted signal list. -/
theorem classifySlot_capture (cfg : SimConfig) (rssiOf : Nat → ℚ)
    (e1 e2 : Nat) (tl : List Nat) (hcap : cfg.enableCapture = true)
    (a b : Nat × ℚ) (rest : List (Nat × ℚ))
    (hsort : ((e1 :: e2 :: tl).map (fun e => (e, rssiOf e))).insertionSort
      (fun a b => b.2 ≤ a.2) = a :: b :: rest) :
    classifySlot cfg rssiOf (e1 :: e2 :: tl) =
      (if cfg.captureRatioDb ≤ a.2 - b.2 then (PacketTypeL.SUCCESS, some [a.1])
       else (PacketTypeL.COLLISION, none)) := by
  show (if cfg.enableCapture = true then _ else _) = _
  rw [if_pos hcap, hsort]

/-- C9 (counterexample to the claim as stated): with the capture threshold at
3 dB and two responders whose signal margin is exactly 3, the kernel's
classification converts the collision into a success for the stronger tag —
the source compares with `>=` (`framework.py` line 209), so a margin equal to
the threshold captures, where the claim says the slot must remain a
collision. -/
theorem C9_capture_at_equal_margin :
    classifySlot { enableCapture := true, captureRatioDb := 3 }
      (fun e => if e = 1 then 10 else 7) [1, 2] =
      (PacketTypeL.SUCCESS, some [1]) := by
  have hsort : (([1, 2].map (fun e => (e, (fun e => if e = 1 then (10 : ℚ) else 7) e))).insertionSort
      (fun a b => b.2 ≤ a.2)) = [(1, 10), (2, 7)] := by
    norm_num [List.insertionSort, List.orderedInsert]
  rw [classifySlot_capture _ _ 1 2 [] rfl (1, 10) (2, 7) [] hsort]
  rw [if_pos (by norm_num)]

/-- C9 (amended): for every slot with two or more ground-truth responders and
capture effect enabled, the collision is converted into a success exactly when
the strongest responder's margin over the second-strongest is at least
(`>=`, not strictly greater than) the configured capture threshold, where
"strongest" and "second-strongest" are the first two entries of the
descending-sorted signal strengths. -/
theorem C9_capture_margin (cfg : SimConfig) (rssiOf : Nat → ℚ)
    (rs : List Nat) (hcap : cfg.enableCapture = true) (h2 : 2 ≤ rs.length) :
    ((classifySlot cfg rssiOf rs).1 = PacketTypeL.SUCCESS ↔
      cfg.captureRatioDb ≤
        ((rs.map rssiOf).insertionSort (fun a b : ℚ => b ≤ a)).getD 0 0 -
        ((rs.map rssiOf).insertionSort (fun a b : ℚ => b ≤ a)).getD 1 0) := by
  haveI hT1 : IsTotal (Nat × ℚ) (fun a b => b.2 ≤ a.2) := ⟨fun a b => le_total b.2 a.2⟩
  haveI hTr1 : IsTrans (Nat × ℚ) (fun a b => b.2 ≤ a.2) :=
    ⟨fun _ _ _ h1 h2 => le_trans h2 h1⟩
  haveI hT2 : IsTotal ℚ (fun a b => b ≤ a) := ⟨fun a b => le_total b a⟩
  haveI hTr2 : IsTrans ℚ (fun a b => b ≤ a) := ⟨fun _ _ _ h1 h2 => le_trans h2 h1⟩
  haveI hA2 : IsAntisymm ℚ (fun a b => b ≤ a) := ⟨fun _ _ h1 h2 => le_antisymm h2 h1⟩
  obtain ⟨e1, e2, tl, rfl⟩ : ∃ e1 e2 tl, rs = e1 :: e2 :: tl := by
    cases rs with
    | nil => simp at h2
    | cons x xs =>
      cases xs with
      | nil => simp at h2
      | cons y ys => exact ⟨x, y, ys, rfl⟩
  set P := ((e1 :: e2 :: tl).map (fun e => (e, rssiOf e))).insertionSort
    (fun a b => b.2 ≤ a.2) with hP
  have hlenP : P.length = tl.length + 2 := by
    rw [hP, List.length_insertionSort, List.length_map]
    simp
  obtain ⟨a, b, rest, hPab⟩ : ∃ a b rest, P = a :: b :: rest := by
    cases hc : P with
    | nil => rw [hc] at hlenP; simp at hlenP
    | cons x xs =>
      cases hc2 : xs with
      | nil => rw [hc, hc2] at hlenP; simp at hlenP
      | cons y ys => exact ⟨x, y, ys, rfl⟩
  have hclass := classifySlot_capture cfg rssiOf e1 e2 tl hcap a b rest (by rw [← hP]; exact hPab)
  have hsortedP : P.Sorted (fun a b => b.2 ≤ a.2) := List.sorted_insertionSort _ _
  have hpermP : P.Perm ((e1 :: e2 :: tl).map (fun e => (e, rssiOf e))) :=
    List.perm_insertionSort _ _
  have hmapsnd : (P.map (·.2)).Sorted (fun a b : ℚ => b ≤ a) := by
    apply List.Pairwise.map _ _ hsortedP
    intro x y h
    exact h
  have hpermsnd : (P.map (·.2)).Perm ((e1 :: e2 :: tl).map rssiOf) := by
    have h1 := hpermP.map (·.2)
    rwa [List.map_map] at h1
  have hS : P.map (·.2) =
      ((e1 :: e2 :: tl).map rssiOf).insertionSort (fun a b : ℚ => b ≤ a) := by
    exact List.eq_of_perm_of_sorted
      (hpermsnd.trans (List.perm_insertionSort _ _).symm) hmapsnd
      (List.sorted_insertionSort _ _)
  rw [hclass]
  have hS0 : (((e1 :: e2 :: tl).map rssiOf).insertionSort
      (fun a b : ℚ => b ≤ a)).getD 0 0 = a.2 := by
    rw [← hS, hPab]; rfl
  have hS1 : (((e1 :: e2 :: tl).map rssiOf).insertionSort
      (fun a b : ℚ => b ≤ a)).getD 1 0 = b.2 := by
    rw [← hS, hPab]; rfl
  rw [hS0, hS1]
  split
  · rename_i h
    exact iff_of_true rfl h
  · rename_i h
    exact iff_of_false (by simp) h

/-- Witness for `C9_capture_margin`: responders with signal strengths 10 and 6
against a 3 dB threshold. -/
theorem C9_capture_margin_witness :
    (({ enableCapture := true, captureRatioDb := 3 } : SimConfig).enableCapture = true ∧
      2 ≤ ([1, 2] : List Nat).length) ∧
    ((classifySlot { enableCapture := true, captureRatioDb := 3 }
        (fun e => if e = 1 then 10 else 6) [1, 2]).1 = PacketTypeL.SUCCESS ↔
      (3 : ℚ) ≤
        (([1, 2].map (fun e => if e = 1 then (10 : ℚ) else 6)).insertionSort
          (fun a b : ℚ => b ≤ a)).getD 0 0 -
        (([1, 2].map (fun e => if e = 1 then (10 : ℚ) else 6)).insertionSort
          (fun a b : ℚ => b ≤ a)).getD 1 0) :=
  ⟨⟨rfl, by decide⟩,
   C9_capture_margin { enableCapture := true, captureRatioDb := 3 }
     (fun e => if e = 1 then 10 else 6) [1, 2] rfl (by decide)⟩

/-- Every successful slot execution raises the slot counter by exactly one (or
the slot fails with the impairment-stage error). -/
theorem kernelSlot_shape (K : Consts) (cfg : SimConfig) (presentTags : List TagT)
    (rssiOf : Nat → ℚ) (d : Draws) (cmd : CommandL) (acc : KernelAcc) :
    (∃ e, kernelSlot K cfg presentTags rssiOf d cmd acc = Except.error e) ∨
    (∃ acc2 res, kernelSlot K cfg presentTags rssiOf d cmd acc = Except.ok (acc2, res) ∧
      acc2.totalSlots = acc.totalSlots + 1) := by
  unfold kernelSlot
  dsimp only
  cases hI : injectImpairments cfg d cmd.expectedReplyBits
      (classifySlot cfg rssiOf
        ((presentTags.filter (fun t => respondsTo cmd t.epc)).map (·.epc))).1
      (classifySlot cfg rssiOf
        ((presentTags.filter (fun t => respondsTo cmd t.epc)).map (·.epc))).2 with
  | error e =>
    left
    exact ⟨e, rfl⟩
  | ok v =>
    right
    obtain ⟨status2, resolved2, noiseMask, extra⟩ := v
    refine ⟨_, _, rfl, ?_⟩
    cases hst : (classifySlot cfg rssiOf
        ((presentTags.filter (fun t => respondsTo cmd t.epc)).map (·.epc))).1 <;>
      simp [hst]

/-- The circuit breaker bounds the slot count of any kernel run: once the
counter exceeds the ceiling the loop stops before issuing another command, so
at most one slot beyond the ceiling is ever recorded. -/
theorem kernelLoop_slots_bound {σ : Type} (K : Consts) (cfg : SimConfig)
    (ops : AlgOps σ) (presentTags : List TagT) (rssiOf : Nat → ℚ)
    (draws : Nat → Draws) :
    ∀ fuel (s : σ) prev acc acc2 s2,
      acc.totalSlots ≤ K.maxSlotsLimit + 1 →
      kernelLoop K cfg ops presentTags rssiOf draws fuel s prev acc =
        Except.ok (acc2, s2) →
      acc2.totalSlots ≤ K.maxSlotsLimit + 1 := by
  intro fuel
  induction fuel with
  | zero =>
    intro s prev acc acc2 s2 hb h
    rw [kernelLoop] at h
    have h2 : acc.totalSlots = acc2.totalSlots :=
      congrArg (fun p => p.1.totalSlots) (Except.ok.inj h)
    omega
  | succ fuel ih =>
    intro s prev acc acc2 s2 hb h
    rw [kernelLoop] at h
    split at h
    · have h2 : acc.totalSlots = acc2.totalSlots :=
        congrArg (fun p => p.1.totalSlots) (Except.ok.inj h)
      omega
    · split at h
      · have h2 : acc.totalSlots = acc2.totalSlots :=
          congrArg (fun p => p.1.totalSlots) (Except.ok.inj h)
        omega
      · rename_i hbreak
        have hle : acc.totalSlots ≤ K.maxSlotsLimit := by omega
        dsimp only at h
        split at h
        · have h2 : acc.totalSlots = acc2.totalSlots :=
            congrArg (fun p => p.1.totalSlots) (Except.ok.inj h)
          omega
        · rcases kernelSlot_shape K cfg presentTags rssiOf (draws acc.totalSlots)
              (ops.getNextCommand s prev).2 acc with ⟨e, he⟩ | ⟨accx, res, heq, hinc⟩
          · rw [he] at h
            cases h
          · rw [heq] at h
            exact ih _ _ _ _ _ (by omega) h

/-- C7 (amended): exceeding the configured slot-count ceiling aborts the run —
the loop stops issuing commands, so the slot count reported by
`run_high_fidelity_simulation` never exceeds the ceiling by more than the one
slot in flight — but the abort is reported through the ordinary aggregate
statistics record (plus a console warning), not as a distinguishable fatal
condition. -/
theorem C7_breaker_bound {σ : Type} (K : Consts) (cfg : SimConfig)
    (ops : AlgOps σ) (trueTags : List TagT) (draws : Nat → Draws) (fuel : Nat)
    (s0 : σ) (stats : Stats) (sF : σ)
    (h : runSimulation K cfg ops trueTags draws fuel s0 = Except.ok (stats, sF)) :
    stats.totalSlots ≤ K.maxSlotsLimit + 1 := by
  unfold runSimulation at h
  dsimp only at h
  cases hk : kernelLoop K cfg ops (trueTags.filter (·.isPresent))
      (rssiMap (trueTags.filter (·.isPresent))) draws fuel s0
      { status := PacketTypeL.IDLE, tagIds := [] } {} with
  | error e => rw [hk] at h; cases h
  | ok p =>
    rw [hk] at h
    obtain ⟨acc, sx⟩ := p
    have hstats : stats = finishStats acc :=
      (congrArg (fun p => p.1) (Except.ok.inj h)).symm
    have hb := kernelLoop_slots_bound K cfg ops _ _ draws fuel s0
      { status := PacketTypeL.IDLE, tagIds := [] } {} acc sx (by simp) hk
    rw [hstats]
    exact hb

/-- Witness for `C7_breaker_bound` on the concrete breaker-tripping run. -/
theorem C7_breaker_bound_witness :
    breakerRun = Except.ok (breakerStats, ()) ∧
    breakerStats.totalSlots ≤ breakerConsts.maxSlotsLimit + 1 :=
  ⟨rfl, C7_breaker_bound breakerConsts {} neverOps [] (fun _ => {}) 10 ()
    breakerStats () rfl⟩

/-- C7 (counterexample to "reported as a fatal condition, distinguishable
from a normal result"): a run aborted by the circuit breaker (the
never-finishing protocol, 3 slots against a ceiling of 2) returns a
statistics record identical to that of a protocol that completes normally
after the same three slots — the caller cannot distinguish the abort from an
ordinary result, it is only printed as a console warning. -/
theorem C7_breaker_result_indistinguishable :
    (runSimulation breakerConsts {} neverOps [] (fun _ => {}) 10 ()).map
        (fun p => p.1) =
      (runSimulation breakerConsts {} countOps [] (fun _ => {}) 10 0).map
        (fun p => p.1) ∧
    breakerStats.totalSlots = 3 ∧ breakerConsts.maxSlotsLimit = 2 ∧
    neverOps.isFinished () = false := by
  exact ⟨rfl, rfl, rfl, rfl⟩

theorem take_add_eq {α : Type} (L : List α) (m k : Nat) :
    L.take (m + k) = L.take m ++ (L.drop m).take k := by
  conv_lhs => rw [← List.take_append_drop m (L.take (m + k))]
  congr 1
  · rw [List.take_take]
    congr 1
    omega
  · exact (List.take_drop m k L).symm

theorem slcLoop_fst_bounds (tags : List Nat) (start : Nat) :
    ∀ k, 1 ≤ (slcLoop tags start k).1 ∧ (slcLoop tags start k).1 ≤ max k 1 := by
  intro k
  induction k with
  | zero => exact ⟨le_refl 1, le_refl 1⟩
  | succ k ih =>
    by_cases hout : (getLcp (bin96 (tags.getD start 0))
        (bin96 (tags.getD (start + (k + 1) - 1) 0))).isPrefixOf
        (bin96 (tags.getD (start + (k + 1)) 0)) = true
    · have hstep : slcLoop tags start (k + 1) = slcLoop tags start k := by
        rw [slcLoop]
        simp only [hout]
        rfl
      rw [hstep]
      refine ⟨ih.1, le_trans ih.2 ?_⟩
      have h1 : k ≤ max (k + 1) 1 := le_trans (by omega) (Nat.le_max_left _ _)
      exact max_le h1 (Nat.le_max_right _ _)
    · have hstep : slcLoop tags start (k + 1) =
          (k + 1, getLcp (bin96 (tags.getD start 0))
            (bin96 (tags.getD (start + (k + 1) - 1) 0))) := by
        rw [slcLoop]
        simp only [Bool.not_eq_true] at hout
        simp only [hout]
        rfl
      rw [hstep]
      exact ⟨by omega, le_trans (le_refl _) (Nat.le_max_left _ _)⟩

theorem findDynamicSlice_fst_bounds (mgs : Nat) (tags : List Nat) (start : Nat)
    (override : Option Nat) (hst : start < tags.length)
    (hover : ∀ x, override = some x → 1 ≤ x) :
    1 ≤ (findDynamicSlice mgs tags start override).1 ∧
    (findDynamicSlice mgs tags start override).1 ≤ tags.length - start ∧
    (∀ x, override = some x → (findDynamicSlice mgs tags start override).1 ≤ x) := by
  have hrem : ¬ (tags.length - start = 0) := by omega
  rcases override with _ | o
  · have hunf : findDynamicSlice mgs tags start none =
        (if tags.length ≤ start + min mgs (tags.length - start) then
          (min mgs (tags.length - start),
            getLcp (bin96 (tags.getD start 0))
              (bin96 (tags.getD (start + min mgs (tags.length - start) - 1) 0)))
        else slcLoop tags start (min mgs (tags.length - start))) := by
      unfold findDynamicSlice
      rw [if_neg hrem]
    rw [hunf]
    split
    · rename_i hlast
      refine ⟨by omega, Nat.min_le_right _ _, ?_⟩
      intro x hx
      cases hx
    · obtain ⟨b1, b2⟩ := slcLoop_fst_bounds tags start (min mgs (tags.length - start))
      refine ⟨b1, ?_, ?_⟩
      · have h1 : max (min mgs (tags.length - start)) 1 ≤ tags.length - start := by
          apply max_le (Nat.min_le_right _ _)
          omega
        omega
      · intro x hx
        cases hx
  · have hunf : findDynamicSlice mgs tags start (some o) =
        (if tags.length ≤ start + min (min mgs (tags.length - start)) o then
          (min (min mgs (tags.length - start)) o,
            getLcp (bin96 (tags.getD start 0))
              (bin96 (tags.getD (start + min (min mgs (tags.length - start)) o - 1) 0)))
        else slcLoop tags start (min (min mgs (tags.length - start)) o)) := by
      unfold findDynamicSlice
      rw [if_neg hrem]
    have ho : 1 ≤ o := hover o rfl
    rw [hunf]
    split
    · rename_i hlast
      refine ⟨by omega, le_trans (Nat.min_le_left _ _) (Nat.min_le_right _ _), ?_⟩
      intro x hx
      have : x = o := (Option.some.inj hx).symm
      subst this
      exact Nat.min_le_right _ _
    · obtain ⟨b1, b2⟩ := slcLoop_fst_bounds tags start (min (min mgs (tags.length - start)) o)
      have hm1 : min (min mgs (tags.length - start)) o ≤ tags.length - start :=
        le_trans (Nat.min_le_left _ _) (Nat.min_le_right _ _)
      refine ⟨b1, ?_, ?_⟩
      · have h1 : max (min (min mgs (tags.length - start)) o) 1 ≤ tags.length - start := by
          apply max_le hm1
          omega
        omega
      · intro x hx
        have : x = o := (Option.some.inj hx).symm
        subst this
        have h1 : max (min (min mgs (tags.length - start)) x) 1 ≤ x := by
          apply max_le (Nat.min_le_right _ _)
          omega
        omega

theorem scheduleLoop_some_k (mgs : Nat) (vals : List Nat)
    (cursor rho mrb : Nat) (hst : cursor < vals.length) :
    ∀ fuel limit k mask seed rb m,
      scheduleLoop mgs vals cursor rho mrb fuel limit = some (k, mask, seed, rb, m) →
      1 ≤ k ∧ k ≤ vals.length - cursor := by
  intro fuel
  induction fuel with
  | zero =>
    intro limit k mask seed rb m h
    rw [scheduleLoop] at h
    cases h
  | succ fuel ih =>
    intro limit k mask seed rb m h
    cases limit with
    | zero => rw [scheduleLoop] at h; cases h
    | succ l =>
      rw [scheduleLoop] at h
      obtain ⟨b1, b2, _⟩ := findDynamicSlice_fst_bounds mgs vals cursor (some (l + 1))
        hst (fun x hx => by cases hx; omega)
      cases hseed : findPerfectSeed
          ((vals.drop cursor).take (findDynamicSlice mgs vals cursor (some (l + 1))).1)
          (max 1 ((max 4 (min ((findDynamicSlice mgs vals cursor (some (l + 1))).1 * rho) mrb)) / rho)) with
      | some sd =>
        rw [hseed] at h
        have hk : k = (findDynamicSlice mgs vals cursor (some (l + 1))).1 := by
          have := Option.some.inj h
          exact (congrArg (fun q => q.1) this).symm
        omega
      | none =>
        rw [hseed] at h
        exact ih _ _ _ _ _ _ h

theorem filter_split_toFinset (ctx : List CtxItem) (P : CtxItem → Bool) :
    ((ctx.filter P).map (·.epc)).toFinset ∪
      ((ctx.filter (fun it => !P it)).map (·.epc)).toFinset
      = (ctx.map (·.epc)).toFinset := by
  ext e
  simp only [Finset.mem_union, List.mem_toFinset, List.mem_map, List.mem_filter]
  constructor
  · rintro (⟨it, ⟨hit, _⟩, rfl⟩ | ⟨it, ⟨hit, _⟩, rfl⟩) <;> exact ⟨it, hit, rfl⟩
  · rintro ⟨it, hit, rfl⟩
    by_cases hp : P it
    · exact Or.inl ⟨it, ⟨hit, hp⟩, rfl⟩
    · exact Or.inr ⟨it, ⟨hit, by simp [hp]⟩, rfl⟩

theorem filter_split_disjoint (ctx : List CtxItem) (P : CtxItem → Bool)
    (hnd : (ctx.map (·.epc)).Nodup) :
    Disjoint ((ctx.filter P).map (·.epc)).toFinset
      ((ctx.filter (fun it => !P it)).map (·.epc)).toFinset := by
  rw [Finset.disjoint_left]
  intro e h1 h2
  simp only [List.mem_toFinset, List.mem_map, List.mem_filter] at h1 h2
  obtain ⟨it1, ⟨hm1, hp1⟩, he1⟩ := h1
  obtain ⟨it2, ⟨hm2, hp2⟩, he2⟩ := h2
  have heq : it1 = it2 :=
    List.inj_on_of_nodup_map hnd hm1 hm2 (by rw [he1, he2])
  subst heq
  rw [hp1] at hp2
  simp at hp2

theorem ctx_nil_k_zero (L : List Nat) (c k : Nat) (hk : k ≤ c)
    (hc : c ≤ L.length)
    (hmap : ([] : List CtxItem).map (·.epc) = (L.drop (c - k)).take k) : k = 0 := by
  have hlen := congrArg List.length hmap
  simp only [List.map_nil, List.length_nil, List.length_take, List.length_drop] at hlen
  omega

/-- After Phase 1 the verification sets partition exactly the first `cursor`
sorted tags, whatever the slot result was. -/
theorem phase1_inv (L : List Nat) (hnd : L.Nodup) (s : AlgState)
    (prev : SlotResultL) (hcur : s.cursor ≤ L.length)
    (hk1 : ∃ k, k ≤ s.cursor ∧
      s.lastSentContext.map (·.epc) = (L.drop (s.cursor - k)).take k ∧
      s.verifiedPresent ∪ s.verifiedMissing = (L.take (s.cursor - k)).toFinset)
    (hdisj : Disjoint s.verifiedPresent s.verifiedMissing) :
    (phase1 s prev).1.verifiedPresent ∪ (phase1 s prev).1.verifiedMissing =
      (L.take s.cursor).toFinset ∧
    Disjoint (phase1 s prev).1.verifiedPresent (phase1 s prev).1.verifiedMissing := by
  obtain ⟨k, hkc, hmap, hunion⟩ := hk1
  cases hcc : s.lastSentContext with
  | nil =>
    rw [phase1_nil s prev hcc]
    rw [hcc] at hmap
    have hk0 : k = 0 := ctx_nil_k_zero L s.cursor k hkc hcur hmap
    subst hk0
    simpa using ⟨hunion, hdisj⟩
  | cons c cs =>
    rw [phase1_cons s prev c cs hcc]
    dsimp only
    rw [verifyPhase_eq]
    dsimp only
    rw [verifyFold_present, verifyFold_missing]
    dsimp only
    set received := idealBitmap s.lastSentContext (actualResponders prev) ^^^
      prev.channelNoiseMask with hrecv
    set thr := (if 4 ≤ (s.lastSentContext.headD ⟨0, 0, 0⟩).rho then 3
      else (s.lastSentContext.headD ⟨0, 0, 0⟩).rho) with hthr
    set P := fun it : CtxItem => decide (thr ≤ matchCount received it.slot it.rho)
      with hPdef
    have hfilB : s.lastSentContext.filter
        (fun it => decide (matchCount received it.slot it.rho < thr)) =
        s.lastSentContext.filter (fun it => !P it) := by
      apply List.filter_congr
      intro it _
      rw [hPdef]
      by_cases h : thr ≤ matchCount received it.slot it.rho
      · have h2 : ¬ (matchCount received it.slot it.rho < thr) := by omega
        simp [h, h2]
      · have h2 : matchCount received it.slot it.rho < thr := by omega
        simp [h, h2]
    rw [hfilB]
    have hslice_nodup : (s.lastSentContext.map (·.epc)).Nodup := by
      rw [hmap]
      exact ((List.take_sublist _ _).trans (List.drop_sublist _ _)).nodup hnd
    have hAB_union := filter_split_toFinset s.lastSentContext P
    have hAB_disj := filter_split_disjoint s.lastSentContext P hslice_nodup
    have hlist_disj : List.Disjoint (L.take (s.cursor - k)) (L.drop (s.cursor - k)) := by
      apply List.disjoint_of_nodup_append
      rw [List.take_append_drop]
      exact hnd
    have hsep : ∀ e, e ∈ (s.lastSentContext.map (·.epc)).toFinset →
        e ∉ s.verifiedPresent ∪ s.verifiedMissing := by
      intro e he hmem
      rw [hunion] at hmem
      rw [hmap] at he
      simp only [List.mem_toFinset] at he hmem
      exact hlist_disj hmem (List.mem_of_mem_take he)
    constructor
    · have hcomb : (s.verifiedPresent ∪
          ((s.lastSentContext.filter P).map (·.epc)).toFinset) ∪
          (s.verifiedMissing ∪
            ((s.lastSentContext.filter (fun it => !P it)).map (·.epc)).toFinset)
          = (s.verifiedPresent ∪ s.verifiedMissing) ∪
            (((s.lastSentContext.filter P).map (·.epc)).toFinset ∪
              ((s.lastSentContext.filter (fun it => !P it)).map (·.epc)).toFinset) := by
        ext e
        simp only [Finset.mem_union]
        tauto
      rw [hcomb, hAB_union, hunion, hmap]
      rw [← List.toFinset_append]
      congr 1
      have htake : L.take s.cursor =
          L.take (s.cursor - k) ++ (L.drop (s.cursor - k)).take k := by
        conv_lhs => rw [show s.cursor = (s.cursor - k) + k by omega]
        exact take_add_eq L (s.cursor - k) k
      rw [htake]
    · have hsubA : ((s.lastSentContext.filter P).map (·.epc)).toFinset ⊆
          (s.lastSentContext.map (·.epc)).toFinset := by
        intro e he
        simp only [List.mem_toFinset, List.mem_map, List.mem_filter] at he ⊢
        obtain ⟨it, ⟨hit, _⟩, rfl⟩ := he
        exact ⟨it, hit, rfl⟩
      have hsubB : ((s.lastSentContext.filter (fun it => !P it)).map (·.epc)).toFinset ⊆
          (s.lastSentContext.map (·.epc)).toFinset := by
        intro e he
        simp only [List.mem_toFinset, List.mem_map, List.mem_filter] at he ⊢
        obtain ⟨it, ⟨hit, _⟩, rfl⟩ := he
        exact ⟨it, hit, rfl⟩
      rw [Finset.disjoint_union_left]
      constructor
      · rw [Finset.disjoint_union_right]
        refine ⟨hdisj, ?_⟩
        rw [Finset.disjoint_right]
        intro e he hp
        exact hsep e (hsubB he) (Finset.mem_union_left _ hp)
      · rw [Finset.disjoint_union_right]
        constructor
        · rw [Finset.disjoint_left]
          intro e he hq
          exact hsep e (hsubA he) (Finset.mem_union_right _ hq)
        · exact hAB_disj

theorem getNextCommand_terminal (s : AlgState) (prev : SlotResultL)
    (hge : (phase1 s prev).1.totalTags ≤ (phase1 s prev).1.cursor) :
    (getNextCommand s prev).1 = { (phase1 s prev).1 with isRunning := false } ∧
    (getNextCommand s prev).2 = { payloadBits := -1, expectedReplyBits := 0 } := by
  unfold getNextCommand
  dsimp only
  rw [if_pos hge]
  exact ⟨rfl, rfl⟩

theorem getNextCommand_else (s : AlgState) (prev : SlotResultL)
    (hlt : (phase1 s prev).1.cursor < (phase1 s prev).1.totalTags) :
    ∃ mrb : Nat,
      (getNextCommand s prev).1 =
        { (phase1 s prev).1 with
            lastSentContext :=
              (((phase1 s prev).1.sortedTags.drop (phase1 s prev).1.cursor).take
                ((scheduleLoop (phase1 s prev).1.maxGroupSize
                  (phase1 s prev).1.sortedTags (phase1 s prev).1.cursor
                  (phase1 s prev).1.currentRho mrb
                  (min (min (phase1 s prev).1.maxGroupSize
                    (mrb / (phase1 s prev).1.currentRho))
                    ((phase1 s prev).1.totalTags - (phase1 s prev).1.cursor))
                  (min (min (phase1 s prev).1.maxGroupSize
                    (mrb / (phase1 s prev).1.currentRho))
                    ((phase1 s prev).1.totalTags - (phase1 s prev).1.cursor))).getD
                    (0, [], 0, 0, 0)).1).map
                (fun v => CtxItem.mk v
                  ((v ^^^ ((scheduleLoop (phase1 s prev).1.maxGroupSize
                    (phase1 s prev).1.sortedTags (phase1 s prev).1.cursor
                    (phase1 s prev).1.currentRho mrb
                    (min (min (phase1 s prev).1.maxGroupSize
                      (mrb / (phase1 s prev).1.currentRho))
                      ((phase1 s prev).1.totalTags - (phase1 s prev).1.cursor))
                    (min (min (phase1 s prev).1.maxGroupSize
                      (mrb / (phase1 s prev).1.currentRho))
                      ((phase1 s prev).1.totalTags - (phase1 s prev).1.cursor))).getD
                      (0, [], 0, 0, 0)).2.2.1) %
                    ((scheduleLoop (phase1 s prev).1.maxGroupSize
                      (phase1 s prev).1.sortedTags (phase1 s prev).1.cursor
                      (phase1 s prev).1.currentRho mrb
                      (min (min (phase1 s prev).1.maxGroupSize
                        (mrb / (phase1 s prev).1.currentRho))
                        ((phase1 s prev).1.totalTags - (phase1 s prev).1.cursor))
                      (min (min (phase1 s prev).1.maxGroupSize
                        (mrb / (phase1 s prev).1.currentRho))
                        ((phase1 s prev).1.totalTags - (phase1 s prev).1.cursor))).getD
                        (0, [], 0, 0, 0)).2.2.2.2)
                  (phase1 s prev).1.currentRho)
            cursor := (phase1 s prev).1.cursor +
              ((scheduleLoop (phase1 s prev).1.maxGroupSize
                (phase1 s prev).1.sortedTags (phase1 s prev).1.cursor
                (phase1 s prev).1.currentRho mrb
                (min (min (phase1 s prev).1.maxGroupSize
                  (mrb / (phase1 s prev).1.currentRho))
                  ((phase1 s prev).1.totalTags - (phase1 s prev).1.cursor))
                (min (min (phase1 s prev).1.maxGroupSize
                  (mrb / (phase1 s prev).1.currentRho))
                  ((phase1 s prev).1.totalTags - (phase1 s prev).1.cursor))).getD
                  (0, [], 0, 0, 0)).1 } ∧
      (getNextCommand s prev).2.responseMask =
        some ((scheduleLoop (phase1 s prev).1.maxGroupSize
          (phase1 s prev).1.sortedTags (phase1 s prev).1.cursor
          (phase1 s prev).1.currentRho mrb
          (min (min (phase1 s prev).1.maxGroupSize
            (mrb / (phase1 s prev).1.currentRho))
            ((phase1 s prev).1.totalTags - (phase1 s prev).1.cursor))
          (min (min (phase1 s prev).1.maxGroupSize
            (mrb / (phase1 s prev).1.currentRho))
            ((phase1 s prev).1.totalTags - (phase1 s prev).1.cursor))).getD
            (0, [], 0, 0, 0)).2.1 ∧
      (getNextCommand s prev).2.expectedReplyBits =
        ((scheduleLoop (phase1 s prev).1.maxGroupSize
          (phase1 s prev).1.sortedTags (phase1 s prev).1.cursor
          (phase1 s prev).1.currentRho mrb
          (min (min (phase1 s prev).1.maxGroupSize
            (mrb / (phase1 s prev).1.currentRho))
            ((phase1 s prev).1.totalTags - (phase1 s prev).1.cursor))
          (min (min (phase1 s prev).1.maxGroupSize
            (mrb / (phase1 s prev).1.currentRho))
            ((phase1 s prev).1.totalTags - (phase1 s prev).1.cursor))).getD
            (0, [], 0, 0, 0)).2.2.2.1 ∧
      0 ≤ (getNextCommand s prev).2.payloadBits := by
  refine ⟨(if decide (4 ≤ (phase1 s prev).1.currentRho) && (phase1 s prev).2 then
    min 128 (phase1 s prev).1.maxPayloadBit else (phase1 s prev).1.maxPayloadBit),
    ?_, ?_, ?_, ?_⟩
  · unfold getNextCommand
    dsimp only
    rw [if_neg (by omega)]
  · unfold getNextCommand
    dsimp only
    rw [if_neg (by omega)]
  · unfold getNextCommand
    dsimp only
    rw [if_neg (by omega)]
  · unfold getNextCommand
    dsimp only
    rw [if_neg (by omega)]
    exact Int.natCast_nonneg _

theorem phase1_ctx_nil (s : AlgState) (prev : SlotResultL)
    (h : s.lastSentContext = []) : (phase1 s prev).1.lastSentContext = [] := by
  rw [phase1_nil s prev h]
  exact h

theorem phase1_ctx_nil2 (s : AlgState) (prev : SlotResultL) :
    (phase1 s prev).1.lastSentContext = [] := by
  cases hcc : s.lastSentContext with
  | nil => rw [phase1_nil s prev hcc]; exact hcc
  | cons c cs => rw [phase1_cons s prev c cs hcc]

/-- One protocol step preserves the run invariant, for any slot result. -/
theorem InvC1_step (L : List Nat) (hnd : L.Nodup) (s : AlgState)
    (prev : SlotResultL) (h : InvC1 L s) : InvC1 L ((getNextCommand s prev).1) := by
  obtain ⟨hsort, htot, hcur, hdisj, k, hkc, hmap, hunion, hfin⟩ := h
  obtain ⟨p1, p2, p3, p4, p5, p6, p7, p8⟩ := phase1_fst_base s prev
  have hinv1 := phase1_inv L hnd s prev (by omega)
    ⟨k, hkc, hmap, hunion⟩ hdisj
  have hctx1 : (phase1 s prev).1.lastSentContext = [] := phase1_ctx_nil2 s prev
  by_cases hbr : (phase1 s prev).1.totalTags ≤ (phase1 s prev).1.cursor
  · obtain ⟨hst2, _⟩ := getNextCommand_terminal s prev hbr
    rw [hst2]
    have hceq : s.cursor = L.length := by
      rw [p2, p7] at hbr
      omega
    refine ⟨?_, ?_, ?_, ?_, 0, ?_, ?_, ?_, ?_⟩
    · show (phase1 s prev).1.sortedTags = L
      rw [p1, hsort]
    · show (phase1 s prev).1.totalTags = L.length
      rw [p2, htot]
    · show (phase1 s prev).1.cursor ≤ L.length
      rw [p7]
      omega
    · exact hinv1.2
    · show (0 : Nat) ≤ (phase1 s prev).1.cursor
      omega
    · show (phase1 s prev).1.lastSentContext.map (·.epc) =
        (L.drop ((phase1 s prev).1.cursor - 0)).take 0
      rw [hctx1]
      simp
    · show (phase1 s prev).1.verifiedPresent ∪ (phase1 s prev).1.verifiedMissing =
        (L.take ((phase1 s prev).1.cursor - 0)).toFinset
      rw [Nat.sub_zero, hinv1.1, p7]
    · intro _
      refine ⟨?_, rfl⟩
      show (phase1 s prev).1.cursor = L.length
      rw [p7]
      omega
  · push_neg at hbr
    obtain ⟨mrb, hst2, _⟩ := getNextCommand_else s prev hbr
    rw [hst2]
    generalize hg : ((scheduleLoop (phase1 s prev).1.maxGroupSize
      (phase1 s prev).1.sortedTags (phase1 s prev).1.cursor
      (phase1 s prev).1.currentRho mrb
      (min (min (phase1 s prev).1.maxGroupSize
        (mrb / (phase1 s prev).1.currentRho))
        ((phase1 s prev).1.totalTags - (phase1 s prev).1.cursor))
      (min (min (phase1 s prev).1.maxGroupSize
        (mrb / (phase1 s prev).1.currentRho))
        ((phase1 s prev).1.totalTags - (phase1 s prev).1.cursor))).getD
        (0, [], 0, 0, 0)) = sch
    have hcl : (phase1 s prev).1.cursor < (phase1 s prev).1.sortedTags.length := by
      rw [p1, hsort]
      rw [p2, htot] at hbr
      omega
    have hk_le : sch.1 ≤ L.length - s.cursor := by
      rw [← hg]
      cases hscl : scheduleLoop (phase1 s prev).1.maxGroupSize
          (phase1 s prev).1.sortedTags (phase1 s prev).1.cursor
          (phase1 s prev).1.currentRho mrb
          (min (min (phase1 s prev).1.maxGroupSize
            (mrb / (phase1 s prev).1.currentRho))
            ((phase1 s prev).1.totalTags - (phase1 s prev).1.cursor))
          (min (min (phase1 s prev).1.maxGroupSize
            (mrb / (phase1 s prev).1.currentRho))
            ((phase1 s prev).1.totalTags - (phase1 s prev).1.cursor)) with
      | none => simp
      | some v =>
        obtain ⟨v1, v2, v3, v4, v5⟩ := v
        have hb := scheduleLoop_some_k (phase1 s prev).1.maxGroupSize
          (phase1 s prev).1.sortedTags (phase1 s prev).1.cursor
          (phase1 s prev).1.currentRho mrb hcl _ _ _ _ _ _ _ hscl
        rw [p1, hsort, p7] at hb
        simpa using hb.2
    have hrun1 : (phase1 s prev).1.isRunning = true := by
      rw [p8]
      cases hb : s.isRunning with
      | true => rfl
      | false =>
        exfalso
        obtain ⟨hc2, _⟩ := hfin hb
        rw [p2, htot, p7] at hbr
        omega
    have hidx : (phase1 s prev).1.cursor + sch.1 - sch.1 = s.cursor := by
      rw [p7]
      omega
    refine ⟨?_, ?_, ?_, ?_, sch.1, ?_, ?_, ?_, ?_⟩
    · show (phase1 s prev).1.sortedTags = L
      rw [p1, hsort]
    · show (phase1 s prev).1.totalTags = L.length
      rw [p2, htot]
    · show (phase1 s prev).1.cursor + sch.1 ≤ L.length
      rw [p7]
      omega
    · exact hinv1.2
    · show sch.1 ≤ (phase1 s prev).1.cursor + sch.1
      omega
    · show ((((phase1 s prev).1.sortedTags.drop (phase1 s prev).1.cursor).take
          sch.1).map (fun v => CtxItem.mk v ((v ^^^ sch.2.2.1) % sch.2.2.2.2)
          (phase1 s prev).1.currentRho)).map (·.epc) =
        (L.drop ((phase1 s prev).1.cursor + sch.1 - sch.1)).take sch.1
      rw [List.map_map, hidx]
      have hid : ((fun it : CtxItem => it.epc) ∘
          (fun v => CtxItem.mk v ((v ^^^ sch.2.2.1) % sch.2.2.2.2)
            (phase1 s prev).1.currentRho)) = id := by
        funext v
        rfl
      rw [hid, List.map_id, p1, hsort, p7]
    · show (phase1 s prev).1.verifiedPresent ∪ (phase1 s prev).1.verifiedMissing =
        (L.take ((phase1 s prev).1.cursor + sch.1 - sch.1)).toFinset
      rw [hidx, hinv1.1]
    · intro hcon
      rw [hrun1] at hcon
      cases hcon

theorem InvC1_init (mgs tr : Nat) (ad : Bool) (mpb : Nat) (expected : List Nat) :
    InvC1 (expected.insertionSort (· ≤ ·))
      (initState mgs tr ad mpb expected) := by
  refine ⟨rfl, ?_, ?_, ?_, 0, ?_, ?_, ?_, ?_⟩
  · show expected.length = (expected.insertionSort (· ≤ ·)).length
    exact (List.perm_insertionSort _ _).length_eq.symm
  · exact Nat.zero_le _
  · show Disjoint (∅ : Finset Nat) ∅
    simp
  · exact Nat.le_refl 0
  · simp [initState]
  · simp [initState]
  · intro hcon
    cases hcon

/-- C1: for any protocol parameters and any duplicate-free expected tag
population, every state reachable from the initial state of the LODS engine
by any sequence of `get_next_command` calls has disjoint `verified_present`
and `verified_missing` sets, and once the engine has finished
(`is_running = False`, so `is_finished()` returns `True`), their union is
exactly the set of all expected tag identifiers. -/
theorem C1_partition (mgs tr : Nat) (ad : Bool) (mpb : Nat)
    (expected : List Nat) (hnd : expected.Nodup) (s : AlgState)
    (hr : ReachState (initState mgs tr ad mpb expected) s) :
    Disjoint s.verifiedPresent s.verifiedMissing ∧
    (s.isRunning = false →
      s.verifiedPresent ∪ s.verifiedMissing = expected.toFinset) := by
  have hndL : (expected.insertionSort (· ≤ ·)).Nodup :=
    (List.perm_insertionSort _ expected).nodup_iff.mpr hnd
  have hinv : InvC1 (expected.insertionSort (· ≤ ·)) s := by
    induction hr with
    | refl => exact InvC1_init mgs tr ad mpb expected
    | step s' prev _ ih => exact InvC1_step _ hndL s' prev ih
  obtain ⟨_, _, _, hdisj, k, _, _, hunion, hfin⟩ := hinv
  refine ⟨hdisj, fun hoff => ?_⟩
  obtain ⟨hc, hk0⟩ := hfin hoff
  rw [hunion, hc, hk0, Nat.sub_zero, List.take_length]
  ext x
  simp only [List.mem_toFinset]
  exact (List.perm_insertionSort _ expected).mem_iff

theorem C1_partition_witness :
    Disjoint (initState 128 4 true 256 [2, 1]).verifiedPresent
      (initState 128 4 true 256 [2, 1]).verifiedMissing ∧
    ((initState 128 4 true 256 [2, 1]).isRunning = false →
      (initState 128 4 true 256 [2, 1]).verifiedPresent ∪
        (initState 128 4 true 256 [2, 1]).verifiedMissing =
        ([2, 1] : List Nat).toFinset) :=
  C1_partition 128 4 true 256 [2, 1] (by decide) _ ReachState.refl

theorem hasDup_eq_false_nodup : ∀ l : List Nat, hasDup l = false → l.Nodup := by
  intro l
  induction l with
  | nil => intro _; exact List.nodup_nil
  | cons x xs ih =>
    intro h
    rw [hasDup, Bool.or_eq_false_iff] at h
    rw [List.nodup_cons]
    refine ⟨?_, ih h.2⟩
    intro hmem
    have : xs.contains x = true := List.elem_eq_true_of_mem hmem
    rw [h.1] at this
    cases this

theorem findSeedAux_hasDup (epcs : List Nat) (m : Nat) :
    ∀ cand s, findSeedAux epcs m cand = some s →
      hasDup (epcs.map (fun v => (v ^^^ s) % m)) = false := by
  intro cand
  induction cand with
  | nil => intro s h; rw [findSeedAux] at h; cases h
  | cons c rest ih =>
    intro s h
    rw [findSeedAux] at h
    by_cases hd : hasDup (epcs.map (fun v => (v ^^^ c) % m)) = true
    · rw [if_pos hd] at h
      exact ih s h
    · rw [if_neg hd] at h
      have hcs : c = s := Option.some.inj h
      subst hcs
      exact Bool.eq_false_iff.mpr hd

theorem findPerfectSeed_nodup (epcs : List Nat) (m s : Nat)
    (h : findPerfectSeed epcs m = some s) :
    (epcs.map (fun v => (v ^^^ s) % m)).Nodup :=
  hasDup_eq_false_nodup _ (findSeedAux_hasDup epcs m (List.range 16) s h)

theorem idealBitmap_or_init (R : List Nat) (ctx : List CtxItem) :
    ∀ acc : Nat,
      ctx.foldl
        (fun a item =>
          if R.contains item.epc then a ||| subfieldMask item.slot item.rho
          else a) acc =
      acc |||
        ctx.foldl
          (fun a item =>
            if R.contains item.epc then a ||| subfieldMask item.slot item.rho
            else a) 0 := by
  induction ctx with
  | nil => intro acc; simp
  | cons hd tl ih =>
    intro acc
    rw [List.foldl_cons, List.foldl_cons, ih, ih (if R.contains hd.epc then
      0 ||| subfieldMask hd.slot hd.rho else 0)]
    by_cases hc : R.contains hd.epc = true
    · rw [if_pos hc, if_pos hc, Nat.zero_or, Nat.or_assoc]
    · rw [if_neg hc, if_neg hc, Nat.zero_or]

theorem idealBitmap_cons (R : List Nat) (it : CtxItem) (ctx : List CtxItem) :
    idealBitmap (it :: ctx) R =
      (if R.contains it.epc then subfieldMask it.slot it.rho else 0) |||
        idealBitmap ctx R := by
  rw [idealBitmap, idealBitmap, List.foldl_cons, idealBitmap_or_init]
  by_cases hc : R.contains it.epc = true
  · rw [if_pos hc, if_pos hc, Nat.zero_or]
  · rw [if_neg hc, if_neg hc, Nat.zero_or]

theorem idealBitmap_and_ne (R : List Nat) (r sl : Nat) :
    ∀ ctx : List CtxItem, (∀ it ∈ ctx, it.rho = r) →
      (∀ it ∈ ctx, it.slot ≠ sl) →
      idealBitmap ctx R &&& subfieldMask sl r = 0 := by
  intro ctx
  induction ctx with
  | nil => intro _ _; rw [idealBitmap, List.foldl_nil, Nat.zero_and]
  | cons hd tl ih =>
    intro hr hsl
    rw [idealBitmap_cons, land_or_distrib]
    rw [ih (fun it hit => hr it (List.mem_cons_of_mem hd hit))
      (fun it hit => hsl it (List.mem_cons_of_mem hd hit))]
    by_cases hc : R.contains hd.epc = true
    · rw [if_pos hc, hr hd (List.mem_cons_self hd tl),
        subfieldMask_disjoint _ _ _ (hsl hd (List.mem_cons_self hd tl)),
        Nat.or_zero]
    · rw [if_neg hc, Nat.zero_and, Nat.or_zero]

theorem idealBitmap_and_mem (R : List Nat) (r : Nat) :
    ∀ ctx : List CtxItem, (∀ it ∈ ctx, it.rho = r) →
      (ctx.map (·.slot)).Nodup →
      ∀ it ∈ ctx,
        idealBitmap ctx R &&& subfieldMask it.slot r =
          if R.contains it.epc then subfieldMask it.slot r else 0 := by
  intro ctx
  induction ctx with
  | nil => intro _ _ it hit; cases hit
  | cons hd tl ih =>
    intro hr hnd it hit
    rw [List.map_cons, List.nodup_cons] at hnd
    rcases List.mem_cons.mp hit with heq | htl
    · subst heq
      rw [idealBitmap_cons, land_or_distrib]
      have htlne : ∀ jt ∈ tl, jt.slot ≠ it.slot := by
        intro jt hjt hne
        exact hnd.1 (hne ▸ List.mem_map_of_mem (·.slot) hjt)
      rw [idealBitmap_and_ne R r it.slot tl
        (fun jt hjt => hr jt (List.mem_cons_of_mem it hjt)) htlne, Nat.or_zero]
      by_cases hc : R.contains it.epc = true
      · rw [if_pos hc, if_pos hc, hr it (List.mem_cons_self it tl), Nat.and_self]
      · rw [if_neg hc, if_neg hc, Nat.zero_and]
    · rw [idealBitmap_cons, land_or_distrib]
      have hne : hd.slot ≠ it.slot := by
        intro he
        exact hnd.1 (he ▸ List.mem_map_of_mem (·.slot) htl)
      have hhd : (if R.contains hd.epc then subfieldMask hd.slot hd.rho else 0)
          &&& subfieldMask it.slot r = 0 := by
        by_cases hc : R.contains hd.epc = true
        · rw [if_pos hc, hr hd (List.mem_cons_self hd tl)]
          exact subfieldMask_disjoint _ _ _ hne
        · rw [if_neg hc, Nat.zero_and]
      rw [hhd, Nat.zero_or]
      exact ih (fun jt hjt => hr jt (List.mem_cons_of_mem hd hjt)) hnd.2 it htl

theorem matchCount_ideal (R : List Nat) (r : Nat) (ctx : List CtxItem)
    (hr : ∀ it ∈ ctx, it.rho = r) (hnd : (ctx.map (·.slot)).Nodup)
    (it : CtxItem) (hit : it ∈ ctx) :
    matchCount (idealBitmap ctx R) it.slot r =
      if R.contains it.epc then r else 0 := by
  rw [matchCount, idealBitmap_and_mem R r ctx hr hnd it hit]
  by_cases hc : R.contains it.epc = true
  · rw [if_pos hc, if_pos hc, countOnes_subfieldMask]
  · rw [if_neg hc, if_neg hc, countOnes_zero]

theorem ctx_filter_map_mem (P : List Nat) :
    ∀ ctx : List CtxItem,
      (ctx.filter (fun it => decide (it.epc ∈ P))).map (·.epc) =
        (ctx.map (·.epc)).filter (fun v => decide (v ∈ P)) := by
  intro ctx
  induction ctx with
  | nil => rfl
  | cons hd tl ih =>
    by_cases hm : hd.epc ∈ P
    · simp [List.filter_cons, hm, ih]
    · simp [List.filter_cons, hm, ih]

theorem ctx_filter_map_not_mem (P : List Nat) :
    ∀ ctx : List CtxItem,
      (ctx.filter (fun it => !decide (it.epc ∈ P))).map (·.epc) =
        (ctx.map (·.epc)).filter (fun v => !decide (v ∈ P)) := by
  intro ctx
  induction ctx with
  | nil => rfl
  | cons hd tl ih =>
    by_cases hm : hd.epc ∈ P
    · simp [List.filter_cons, hm, ih]
    · simp [List.filter_cons, hm, ih]

theorem phase1_correct (P L : List Nat) (s : AlgState) (prev : SlotResultL)
    (hcur : s.cursor ≤ L.length) (hrho : 1 ≤ s.currentRho)
    (hnoise : prev.channelNoiseMask = 0) (k : Nat) (hk : k ≤ s.cursor)
    (hmap : s.lastSentContext.map (·.epc) = (L.drop (s.cursor - k)).take k)
    (hslots : (s.lastSentContext.map (·.slot)).Nodup)
    (hrhoc : ∀ it ∈ s.lastSentContext, it.rho = s.currentRho)
    (hbridge : ∀ it ∈ s.lastSentContext,
      it.epc ∈ actualResponders prev ↔ it.epc ∈ P)
    (hvp : s.verifiedPresent =
      ((L.take (s.cursor - k)).filter (fun v => decide (v ∈ P))).toFinset)
    (hvm : s.verifiedMissing =
      ((L.take (s.cursor - k)).filter (fun v => !decide (v ∈ P))).toFinset) :
    (phase1 s prev).1.verifiedPresent =
      ((L.take s.cursor).filter (fun v => decide (v ∈ P))).toFinset ∧
    (phase1 s prev).1.verifiedMissing =
      ((L.take s.cursor).filter (fun v => !decide (v ∈ P))).toFinset ∧
    1 ≤ (phase1 s prev).1.currentRho := by
  have hsplit : L.take s.cursor =
      L.take (s.cursor - k) ++ (L.drop (s.cursor - k)).take k := by
    have h1 := take_add_eq L (s.cursor - k) k
    rw [show s.cursor - k + k = s.cursor from by omega] at h1
    exact h1
  cases hctx : s.lastSentContext with
  | nil =>
    rw [phase1_nil s prev hctx]
    rw [hctx] at hmap
    simp only [List.map_nil] at hmap
    have hlen := congrArg List.length hmap
    simp only [List.length_nil, List.length_take, List.length_drop] at hlen
    have hk0 : k = 0 := by omega
    subst hk0
    rw [Nat.sub_zero] at hvp hvm
    exact ⟨hvp, hvm, hrho⟩
  | cons c0 cs =>
    rw [hctx] at hmap hslots hrhoc hbridge
    rw [phase1_cons s prev c0 cs hctx, hctx]
    refine ⟨?_, ?_, ?_⟩
    · show (verifyPhase (c0 :: cs) prev s.verifiedPresent s.verifiedMissing).1 = _
      rw [verifyPhase_eq]
      dsimp only
      rw [hnoise, Nat.xor_zero, List.headD_cons,
        hrhoc c0 (List.mem_cons_self c0 cs)]
      rw [verifyFold_present]
      dsimp only
      have hcongr : List.filter (fun it => decide
            ((if 4 ≤ s.currentRho then 3 else s.currentRho) ≤
              matchCount (idealBitmap (c0 :: cs) (actualResponders prev))
                it.slot it.rho)) (c0 :: cs) =
          List.filter (fun it => decide (it.epc ∈ P)) (c0 :: cs) := by
        apply List.filter_congr
        intro it hit
        rw [hrhoc it hit,
          matchCount_ideal (actualResponders prev) s.currentRho (c0 :: cs)
            hrhoc hslots it hit]
        by_cases hm : it.epc ∈ actualResponders prev
        · have hc : (actualResponders prev).contains it.epc = true :=
            List.elem_eq_true_of_mem hm
          rw [if_pos hc]
          have h1 : (if 4 ≤ s.currentRho then 3 else s.currentRho) ≤
              s.currentRho := by
            split <;> omega
          have h2 : it.epc ∈ P := (hbridge it hit).mp hm
          simp [h1, h2]
        · have hc : ¬ (actualResponders prev).contains it.epc = true :=
            fun hcc => hm (List.mem_of_elem_eq_true hcc)
          rw [if_neg hc]
          have h1 : ¬ (if 4 ≤ s.currentRho then 3 else s.currentRho) ≤ 0 := by
            split <;> omega
          have h2 : it.epc ∉ P := fun hp => hm ((hbridge it hit).mpr hp)
          simp [h1, h2]
      rw [hcongr, ctx_filter_map_mem P (c0 :: cs), hmap, hvp, hsplit,
        List.filter_append, List.toFinset_append]
    · show (verifyPhase (c0 :: cs) prev s.verifiedPresent s.verifiedMissing).2.1 = _
      rw [verifyPhase_eq]
      dsimp only
      rw [hnoise, Nat.xor_zero, List.headD_cons,
        hrhoc c0 (List.mem_cons_self c0 cs)]
      rw [verifyFold_missing]
      dsimp only
      have hcongr : List.filter (fun it => decide
            (matchCount (idealBitmap (c0 :: cs) (actualResponders prev))
                it.slot it.rho <
              (if 4 ≤ s.currentRho then 3 else s.currentRho))) (c0 :: cs) =
          List.filter (fun it => !decide (it.epc ∈ P)) (c0 :: cs) := by
        apply List.filter_congr
        intro it hit
        rw [hrhoc it hit,
          matchCount_ideal (actualResponders prev) s.currentRho (c0 :: cs)
            hrhoc hslots it hit]
        by_cases hm : it.epc ∈ actualResponders prev
        · have hc : (actualResponders prev).contains it.epc = true :=
            List.elem_eq_true_of_mem hm
          rw [if_pos hc]
          have h1 : ¬ s.currentRho <
              (if 4 ≤ s.currentRho then 3 else s.currentRho) := by
            split <;> omega
          have h2 : it.epc ∈ P := (hbridge it hit).mp hm
          simp [h1, h2]
        · have hc : ¬ (actualResponders prev).contains it.epc = true :=
            fun hcc => hm (List.mem_of_elem_eq_true hcc)
          rw [if_neg hc]
          have h1 : 0 < (if 4 ≤ s.currentRho then 3 else s.currentRho) := by
            split <;> omega
          have h2 : it.epc ∉ P := fun hp => hm ((hbridge it hit).mpr hp)
          simp [h1, h2]
      rw [hcongr, ctx_filter_map_not_mem P (c0 :: cs), hmap, hvm, hsplit,
        List.filter_append, List.toFinset_append]
    · show 1 ≤ (if s.isAdaptive && _ then if _ then 2 else 4 else s.currentRho)
      split <;> first
        | omega
        | (split <;> omega)

theorem scheduleLoop_spec2 (mgs : Nat) (vals : List Nat)
    (cursor rho mrb : Nat) :
    ∀ fuel limit k mask seed rb m,
      scheduleLoop mgs vals cursor rho mrb fuel limit =
        some (k, mask, seed, rb, m) →
      (∃ l, 1 ≤ l ∧ findDynamicSlice mgs vals cursor (some l) = (k, mask)) ∧
      findPerfectSeed ((vals.drop cursor).take k) m = some seed := by
  intro fuel
  induction fuel with
  | zero =>
    intro limit k mask seed rb m h
    rw [scheduleLoop] at h
    cases h
  | succ fuel ih =>
    intro limit k mask seed rb m h
    cases limit with
    | zero => rw [scheduleLoop] at h; cases h
    | succ l =>
      rw [scheduleLoop] at h
      cases hseed : findPerfectSeed
          ((vals.drop cursor).take (findDynamicSlice mgs vals cursor (some (l + 1))).1)
          (max 1 ((max 4 (min ((findDynamicSlice mgs vals cursor (some (l + 1))).1 * rho) mrb)) / rho)) with
      | some sd =>
        rw [hseed] at h
        have ht := Option.some.inj h
        have hk : (findDynamicSlice mgs vals cursor (some (l + 1))).1 = k :=
          congrArg (fun q => q.1) ht
        have hmask : (findDynamicSlice mgs vals cursor (some (l + 1))).2 = mask :=
          congrArg (fun q => q.2.1) ht
        have hsd : sd = seed := congrArg (fun q => q.2.2.1) ht
        have hm : (max 1 ((max 4 (min ((findDynamicSlice mgs vals cursor
            (some (l + 1))).1 * rho) mrb)) / rho)) = m :=
          congrArg (fun q => q.2.2.2.2) ht
        refine ⟨⟨l + 1, by omega, ?_⟩, ?_⟩
        · rw [← hk, ← hmask]
        · rw [← hsd, ← hk, ← hseed, hm]
      | none =>
        rw [hseed] at h
        exact ih _ _ _ _ _ _ h

theorem classify_idle_iff (cfg : SimConfig) (rssiOf : Nat → ℚ)
    (rs : List Nat) :
    (classifySlot cfg rssiOf rs).1 = PacketTypeL.IDLE ↔ rs = [] := by
  cases rs with
  | nil => simp [classifySlot]
  | cons e1 rest =>
    cases rest with
    | nil => simp [classifySlot]
    | cons e2 tl =>
      constructor
      · intro h
        exfalso
        simp only [classifySlot] at h
        by_cases hc : cfg.enableCapture = true
        · rw [if_pos hc] at h
          rcases hsrt : ((e1 :: e2 :: tl).map (fun e => (e, rssiOf e))).insertionSort
              (fun a b => b.2 ≤ a.2) with _ | ⟨a, _ | ⟨b, rest2⟩⟩
          · rw [hsrt] at h
            dsimp only at h
            exact PacketTypeL.noConfusion h
          · rw [hsrt] at h
            dsimp only at h
            exact PacketTypeL.noConfusion h
          · rw [hsrt] at h
            dsimp only at h
            by_cases hcap : cfg.captureRatioDb ≤ a.2 - b.2
            · rw [if_pos hcap] at h
              exact PacketTypeL.noConfusion h
            · rw [if_neg hcap] at h
              exact PacketTypeL.noConfusion h
        · rw [if_neg hc] at h
          dsimp only at h
          exact PacketTypeL.noConfusion h
      · intro h
        cases h

theorem inject_clean (cfg : SimConfig) (d : Draws) (len : Nat)
    (st : PacketTypeL) (res : Option (List Nat))
    (h1 : cfg.enableNoise = false) (h4 : cfg.clockDriftRate = 0)
    (h5 : cfg.burstErasureLen = 0) (h6 : cfg.jitterOffset = 0) :
    injectImpairments cfg d len st res = Except.ok (st, res, 0, none) := by
  rw [injectImpairments, h1]
  simp only [Bool.false_and, Bool.false_eq_true, if_false]
  split
  · rw [h4, h5, h6]
    simp
  · rfl

theorem actualResponders_eq (res : SlotResultL)
    (h : res.status = PacketTypeL.IDLE → res.tagIds = []) :
    actualResponders res = res.tagIds := by
  rw [actualResponders]
  split
  · rw [h (by assumption)]
  · rfl

theorem kernelSlot_clean (K : Consts) (cfg : SimConfig) (pts : List TagT)
    (rssiOf : Nat → ℚ) (d : Draws) (cmd : CommandL) (acc : KernelAcc)
    (h1 : cfg.enableNoise = false) (h4 : cfg.clockDriftRate = 0)
    (h5 : cfg.burstErasureLen = 0) (h6 : cfg.jitterOffset = 0) :
    ∃ acc2, kernelSlot K cfg pts rssiOf d cmd acc = Except.ok (acc2,
      { status := (classifySlot cfg rssiOf
          ((pts.filter (fun t => respondsTo cmd t.epc)).map (·.epc))).1
        tagIds := (pts.filter (fun t => respondsTo cmd t.epc)).map (·.epc)
        resolvedData := (classifySlot cfg rssiOf
          ((pts.filter (fun t => respondsTo cmd t.epc)).map (·.epc))).2
        channelNoiseMask := 0
        extraInfo := none }) := by
  exact ⟨_, by
    rw [kernelSlot]
    dsimp only
    rw [inject_clean cfg d cmd.expectedReplyBits _ _ h1 h4 h5 h6]⟩

theorem getNext_step_state (P L : List Nat) (hs : L.Sorted (· < ·))
    (hb : ∀ v ∈ L, v < 2 ^ 96) (s : AlgState) (prev : SlotResultL)
    (h : CInvC2 P L s prev) :
    (∀ it ∈ (getNextCommand s prev).1.lastSentContext,
      respondsTo (getNextCommand s prev).2 it.epc = true) ∧
    (∀ res : SlotResultL, res.channelNoiseMask = 0 →
      (∀ it ∈ (getNextCommand s prev).1.lastSentContext,
        it.epc ∈ actualResponders res ↔ it.epc ∈ P) →
      CInvC2 P L (getNextCommand s prev).1 res) := by
  obtain ⟨hsort, htot, hcur, hrho, hnoise, k, hk, hmap, hslots, hrhoc,
    hbridge, hvp, hvm, hfin⟩ := h
  obtain ⟨p1, p2, p3, p4, p5, p6, p7, p8⟩ := phase1_fst_base s prev
  obtain ⟨q1, q2, q3, q4, q5, q6, q7, q8, q9⟩ := getNextCommand_fst_base s prev
  obtain ⟨hvp1, hvm1, hrho1⟩ := phase1_correct P L s prev hcur hrho hnoise
    k hk hmap hslots hrhoc hbridge hvp hvm
  have hctx1 : (phase1 s prev).1.lastSentContext = [] := phase1_ctx_nil2 s prev
  by_cases hbr : (phase1 s prev).1.totalTags ≤ (phase1 s prev).1.cursor
  · obtain ⟨hst2, hcmd2⟩ := getNextCommand_terminal s prev hbr
    have hctx2 : (getNextCommand s prev).1.lastSentContext = [] := by
      rw [hst2]
      show (phase1 s prev).1.lastSentContext = []
      exact hctx1
    have hcur2 : (getNextCommand s prev).1.cursor = s.cursor := by
      rw [hst2]
      show (phase1 s prev).1.cursor = s.cursor
      exact p7
    have hlen : L.length ≤ s.cursor := by
      rw [p2, htot, p7] at hbr
      exact hbr
    constructor
    · intro it hit
      rw [hctx2] at hit
      cases hit
    · intro res hrn _
      refine ⟨?_, ?_, ?_, ?_, hrn, 0, ?_, ?_, ?_, ?_, ?_, ?_, ?_, ?_⟩
      · rw [q1, p1, hsort]
      · rw [q2, p2, htot]
      · rw [hcur2]
        omega
      · rw [q7]
        exact hrho1
      · exact Nat.zero_le _
      · rw [hctx2]
        simp
      · rw [hctx2]
        exact List.nodup_nil
      · intro it hit
        rw [hctx2] at hit
        cases hit
      · intro it hit
        rw [hctx2] at hit
        cases hit
      · rw [q8, hvp1, hcur2, Nat.sub_zero]
      · rw [q9, hvm1, hcur2, Nat.sub_zero]
      · intro _
        refine ⟨?_, rfl⟩
        rw [hcur2]
        omega
  · push_neg at hbr
    obtain ⟨mrb, hst2, hmask, hrb, hpay⟩ := getNextCommand_else s prev hbr
    have hst' : s.cursor < L.length := by
      rw [p7, p2, htot] at hbr
      exact hbr
    rw [p1, hsort, p7] at hst2 hmask
    cases hscl : scheduleLoop (phase1 s prev).1.maxGroupSize L s.cursor
        (phase1 s prev).1.currentRho mrb
        (min (min (phase1 s prev).1.maxGroupSize
          (mrb / (phase1 s prev).1.currentRho))
          ((phase1 s prev).1.totalTags - s.cursor))
        (min (min (phase1 s prev).1.maxGroupSize
          (mrb / (phase1 s prev).1.currentRho))
          ((phase1 s prev).1.totalTags - s.cursor)) with
    | none =>
      rw [hscl] at hst2
      have hctx2 : (getNextCommand s prev).1.lastSentContext = [] := by
        rw [hst2]
        rfl
      have hcur2 : (getNextCommand s prev).1.cursor = s.cursor := by
        rw [hst2]
        show s.cursor + (Option.getD none (0, ([] : List Bool), 0, 0, 0)).1 = s.cursor
        rfl
      have hrun2 : (getNextCommand s prev).1.isRunning = s.isRunning := by
        rw [hst2]
        show (phase1 s prev).1.isRunning = s.isRunning
        exact p8
      constructor
      · intro it hit
        rw [hctx2] at hit
        cases hit
      · intro res hrn _
        refine ⟨?_, ?_, ?_, ?_, hrn, 0, ?_, ?_, ?_, ?_, ?_, ?_, ?_, ?_⟩
        · rw [q1, p1, hsort]
        · rw [q2, p2, htot]
        · rw [hcur2]
          omega
        · rw [q7]
          exact hrho1
        · exact Nat.zero_le _
        · rw [hctx2]
          simp
        · rw [hctx2]
          exact List.nodup_nil
        · intro it hit
          rw [hctx2] at hit
          cases hit
        · intro it hit
          rw [hctx2] at hit
          cases hit
        · rw [q8, hvp1, hcur2, Nat.sub_zero]
        · rw [q9, hvm1, hcur2, Nat.sub_zero]
        · intro hoff
          rw [hrun2] at hoff
          exfalso
          have hcl := (hfin hoff).1
          omega
    | some v =>
      obtain ⟨k2, mask, seed, rb, m⟩ := v
      rw [hscl] at hst2 hmask
      obtain ⟨⟨l, hl1, hfds⟩, hseedk⟩ := scheduleLoop_spec2
        (phase1 s prev).1.maxGroupSize L s.cursor
        (phase1 s prev).1.currentRho mrb _ _ _ _ _ _ _ hscl
      have hkb := scheduleLoop_some_k (phase1 s prev).1.maxGroupSize L s.cursor
        (phase1 s prev).1.currentRho mrb hst' _ _ _ _ _ _ _ hscl
      have hctx2 : (getNextCommand s prev).1.lastSentContext =
          ((L.drop s.cursor).take k2).map
            (fun v => CtxItem.mk v ((v ^^^ seed) % m)
              (phase1 s prev).1.currentRho) := by
        rw [hst2]
        rfl
      have hcur2 : (getNextCommand s prev).1.cursor = s.cursor + k2 := by
        rw [hst2]
        rfl
      have hrun2 : (getNextCommand s prev).1.isRunning = s.isRunning := by
        rw [hst2]
        show (phase1 s prev).1.isRunning = s.isRunning
        exact p8
      have hmask2 : (getNextCommand s prev).2.responseMask = some mask := hmask
      have hspec := findDynamicSlice_spec (phase1 s prev).1.maxGroupSize L hs hb
        s.cursor (some l) hst'
        (fun x hx => by rw [← Option.some.inj hx]; exact hl1)
      rw [hfds] at hspec
      dsimp only at hspec
      have hpre := hspec.2.2.2.1
      have hrespond : ∀ it ∈ (getNextCommand s prev).1.lastSentContext,
          respondsTo (getNextCommand s prev).2 it.epc = true := by
        intro it hit
        rw [hctx2] at hit
        obtain ⟨v, hv, hveq⟩ := List.mem_map.mp hit
        rw [respondsTo, hmask2]
        obtain ⟨j, hj, hjv⟩ := List.mem_iff_getElem.mp hv
        have hjlen : j < k2 ∧ s.cursor + j < L.length := by
          simp only [List.length_take, List.length_drop] at hj
          omega
        have hjval : L.getD (s.cursor + j) 0 = v := by
          rw [List.getD_eq_getElem L 0 hjlen.2, ← hjv]
          rw [List.getElem_take, List.getElem_drop]
        have hpp := hpre (s.cursor + j) (by omega) (by omega)
        rw [hjval] at hpp
        have hepc : it.epc = v := by
          rw [← hveq]
        rw [hepc]
        exact hpp
      refine ⟨hrespond, ?_⟩
      intro res hrn hbridge2
      refine ⟨?_, ?_, ?_, ?_, hrn, k2, ?_, ?_, ?_, ?_, hbridge2, ?_, ?_, ?_⟩
      · rw [q1, p1, hsort]
      · rw [q2, p2, htot]
      · rw [hcur2]
        omega
      · rw [q7]
        exact hrho1
      · rw [hcur2]
        omega
      · rw [hctx2, hcur2, List.map_map]
        have hid : ((fun it : CtxItem => it.epc) ∘
            (fun v => CtxItem.mk v ((v ^^^ seed) % m)
              (phase1 s prev).1.currentRho)) = id := by
          funext v
          rfl
        rw [hid, List.map_id, show s.cursor + k2 - k2 = s.cursor from by omega]
      · rw [hctx2, List.map_map]
        have hid : ((fun it : CtxItem => it.slot) ∘
            (fun v => CtxItem.mk v ((v ^^^ seed) % m)
              (phase1 s prev).1.currentRho)) =
            (fun v => (v ^^^ seed) % m) := by
          funext v
          rfl
        rw [hid]
        exact findPerfectSeed_nodup _ _ _ hseedk
      · intro it hit
        rw [hctx2] at hit
        obtain ⟨v, hv, hveq⟩ := List.mem_map.mp hit
        rw [q7, ← hveq]
      · rw [q8, hvp1, hcur2, show s.cursor + k2 - k2 = s.cursor from by omega]
      · rw [q9, hvm1, hcur2, show s.cursor + k2 - k2 = s.cursor from by omega]
      · intro hoff
        rw [hrun2] at hoff
        exfalso
        have hcl := (hfin hoff).1
        omega

theorem kernelLoop_CInv (K : Consts) (cfg : SimConfig)
    (h1 : cfg.enableNoise = false) (h4 : cfg.clockDriftRate = 0)
    (h5 : cfg.burstErasureLen = 0) (h6 : cfg.jitterOffset = 0)
    (pts : List TagT) (rssiOf : Nat → ℚ) (draws : Nat → Draws)
    (P L : List Nat) (hP : P = pts.map (·.epc))
    (hs : L.Sorted (· < ·)) (hb : ∀ v ∈ L, v < 2 ^ 96) :
    ∀ fuel (s : AlgState) (prev : SlotResultL) (acc accF : KernelAcc)
      (sF : AlgState),
      CInvC2 P L s prev →
      kernelLoop K cfg lodsOps pts rssiOf draws fuel s prev acc =
        Except.ok (accF, sF) →
      ∃ prevF, CInvC2 P L sF prevF := by
  intro fuel
  induction fuel with
  | zero =>
    intro s prev acc accF sF hinv h
    rw [kernelLoop] at h
    have h2 : s = sF := congrArg (fun p => p.2) (Except.ok.inj h)
    exact ⟨prev, h2 ▸ hinv⟩
  | succ fuel ih =>
    intro s prev acc accF sF hinv h
    rw [kernelLoop] at h
    split at h
    · have h2 : s = sF := congrArg (fun p => p.2) (Except.ok.inj h)
      exact ⟨prev, h2 ▸ hinv⟩
    · split at h
      · have h2 : s = sF := congrArg (fun p => p.2) (Except.ok.inj h)
        exact ⟨prev, h2 ▸ hinv⟩
      · dsimp only at h
        rw [show lodsOps.getNextCommand = getNextCommand from rfl] at h
        obtain ⟨hresp, hstep⟩ := getNext_step_state P L hs hb s prev hinv
        have hn0 : prev.channelNoiseMask = 0 := hinv.2.2.2.2.1
        split at h
        · rename_i hsent
          have h2 : (getNextCommand s prev).1 = sF :=
            congrArg (fun p => p.2) (Except.ok.inj h)
          have hctxe : (getNextCommand s prev).1.lastSentContext = [] := by
            by_cases hbr : (phase1 s prev).1.totalTags ≤ (phase1 s prev).1.cursor
            · obtain ⟨hst2, _⟩ := getNextCommand_terminal s prev hbr
              rw [hst2]
              exact phase1_ctx_nil2 s prev
            · push_neg at hbr
              obtain ⟨mrb, _, _, _, hpay⟩ := getNextCommand_else s prev hbr
              omega
          refine ⟨prev, h2 ▸ hstep prev hn0 ?_⟩
          intro it hit
          rw [hctxe] at hit
          cases hit
        · obtain ⟨acc2, hks⟩ := kernelSlot_clean K cfg pts rssiOf
            (draws acc.totalSlots) (getNextCommand s prev).2 acc h1 h4 h5 h6
          rw [hks] at h
          have hbridge2 : ∀ it ∈ (getNextCommand s prev).1.lastSentContext,
              it.epc ∈ actualResponders
                { status := (classifySlot cfg rssiOf
                    ((pts.filter (fun t =>
                      respondsTo (getNextCommand s prev).2 t.epc)).map (·.epc))).1
                  tagIds := (pts.filter (fun t =>
                    respondsTo (getNextCommand s prev).2 t.epc)).map (·.epc)
                  resolvedData := (classifySlot cfg rssiOf
                    ((pts.filter (fun t =>
                      respondsTo (getNextCommand s prev).2 t.epc)).map (·.epc))).2
                  channelNoiseMask := 0
                  extraInfo := none } ↔ it.epc ∈ P := by
            intro it hit
            have hre := hresp it hit
            rw [actualResponders_eq _
              (fun hidle => (classify_idle_iff cfg rssiOf _).mp hidle)]
            constructor
            · intro hmem
              obtain ⟨t, htf, hte⟩ := List.mem_map.mp hmem
              have htm := (List.mem_filter.mp htf).1
              rw [hP]
              exact hte ▸ List.mem_map_of_mem (·.epc) htm
            · intro hmemP
              rw [hP] at hmemP
              obtain ⟨t, ht, hte⟩ := List.mem_map.mp hmemP
              refine List.mem_map.mpr ⟨t, List.mem_filter.mpr ⟨ht, ?_⟩, hte⟩
              rw [hte]
              exact hre
          exact ih _ _ _ _ _ (hstep _ rfl hbridge2) h

/-- C2: with every channel impairment disabled (noise off, packet-error rate
0, bit-error rate 0, clock-drift rate 0, burst-erasure length 0, jitter
offset 0), a kernel-driven run of the flagship LODS protocol that terminates
normally (the final state reports `is_finished`) classifies every expected
tag exactly: a tag is in `verified_present` iff it is present, and in
`verified_missing` iff it is absent — zero false positives and zero false
negatives, for every tag population with distinct 96-bit EPCs and every
ground-truth presence assignment. -/
theorem C2_noise_free_exact (K : Consts) (cfg : SimConfig)
    (h1 : cfg.enableNoise = false) (h2 : cfg.packetErrorRate = 0)
    (h3 : cfg.bitErrorRate = 0) (h4 : cfg.clockDriftRate = 0)
    (h5 : cfg.burstErasureLen = 0) (h6 : cfg.jitterOffset = 0)
    (mgs tr mpb : Nat) (trueTags : List TagT)
    (hnd : (trueTags.map (·.epc)).Nodup)
    (hbound : ∀ t ∈ trueTags, t.epc < 2 ^ 96)
    (draws : Nat → Draws) (fuel : Nat) (sF : AlgState)
    (hrun : (runSimulation K cfg lodsOps trueTags draws fuel
      (initState mgs tr true mpb (trueTags.map (·.epc)))).toOption.map (·.2) =
      some sF)
    (hdone : isFinishedAlg sF = true) :
    ∀ t ∈ trueTags,
      (t.epc ∈ sF.verifiedPresent ↔ t.isPresent = true) ∧
      (t.epc ∈ sF.verifiedMissing ↔ t.isPresent = false) := by
  have hndL : ((trueTags.map (·.epc)).insertionSort (· ≤ ·)).Nodup :=
    (List.perm_insertionSort _ _).nodup_iff.mpr hnd
  have hsL : ((trueTags.map (·.epc)).insertionSort (· ≤ ·)).Sorted (· < ·) :=
    (List.sorted_insertionSort _ _).lt_of_le hndL
  have hbL : ∀ v ∈ (trueTags.map (·.epc)).insertionSort (· ≤ ·), v < 2 ^ 96 := by
    intro v hv
    have hv2 : v ∈ trueTags.map (·.epc) :=
      (List.perm_insertionSort _ _).mem_iff.mp hv
    obtain ⟨t, ht, hte⟩ := List.mem_map.mp hv2
    exact hte ▸ hbound t ht
  rw [runSimulation] at hrun
  cases hkl : kernelLoop K cfg lodsOps (trueTags.filter (·.isPresent))
      (rssiMap (trueTags.filter (·.isPresent))) draws fuel
      (initState mgs tr true mpb (trueTags.map (·.epc)))
      { status := PacketTypeL.IDLE, tagIds := [] } {} with
  | error e =>
    rw [hkl] at hrun
    simp [Except.toOption] at hrun
  | ok p =>
    obtain ⟨acc, sE⟩ := p
    rw [hkl] at hrun
    simp only [Except.toOption, Option.map_some] at hrun
    have hsE : sE = sF := Option.some.inj hrun
    subst hsE
    have hinv0 : CInvC2 ((trueTags.filter (·.isPresent)).map (·.epc))
        ((trueTags.map (·.epc)).insertionSort (· ≤ ·))
        (initState mgs tr true mpb (trueTags.map (·.epc)))
        { status := PacketTypeL.IDLE, tagIds := [] } := by
      refine ⟨rfl, ?_, Nat.zero_le _, ?_, rfl, 0, Nat.le_refl 0, ?_, ?_,
        ?_, ?_, ?_, ?_, ?_⟩
      · exact (List.perm_insertionSort _ _).length_eq.symm
      · show (1 : Nat) ≤ 4
        omega
      · simp [initState]
      · simp [initState]
      · intro it hit
        simp [initState] at hit
      · intro it hit
        simp [initState] at hit
      · simp [initState]
      · simp [initState]
      · intro hc
        cases hc
    obtain ⟨prevF, hinvF⟩ := kernelLoop_CInv K cfg h1 h4 h5 h6
      (trueTags.filter (·.isPresent)) (rssiMap (trueTags.filter (·.isPresent)))
      draws ((trueTags.filter (·.isPresent)).map (·.epc))
      ((trueTags.map (·.epc)).insertionSort (· ≤ ·)) rfl hsL hbL fuel
      (initState mgs tr true mpb (trueTags.map (·.epc)))
      { status := PacketTypeL.IDLE, tagIds := [] } {} acc sE hinv0 hkl
    obtain ⟨_, _, _, _, _, kF, _, _, _, _, _, hvpF, hvmF, hfinF⟩ := hinvF
    have hoff : sE.isRunning = false := by
      rw [isFinishedAlg] at hdone
      simp at hdone
      exact hdone
    obtain ⟨hcF, hkF⟩ := hfinF hoff
    rw [hcF, hkF, Nat.sub_zero, List.take_length] at hvpF hvmF
    intro t ht
    have htL : t.epc ∈ (trueTags.map (·.epc)).insertionSort (· ≤ ·) :=
      (List.perm_insertionSort _ _).mem_iff.mpr
        (List.mem_map_of_mem (·.epc) ht)
    have hmemP : t.epc ∈ (trueTags.filter (·.isPresent)).map (·.epc) ↔
        t.isPresent = true := by
      constructor
      · intro hm
        obtain ⟨u, hu, hue⟩ := List.mem_map.mp hm
        have hup := (List.mem_filter.mp hu).1
        have hupres := (List.mem_filter.mp hu).2
        have hut : u = t := List.inj_on_of_nodup_map hnd hup ht hue
        rw [← hut]
        exact hupres
      · intro hp
        exact List.mem_map_of_mem (·.epc) (List.mem_filter.mpr ⟨ht, hp⟩)
    constructor
    · rw [hvpF, List.mem_toFinset, List.mem_filter]
      constructor
      · rintro ⟨_, hpp⟩
        exact hmemP.mp (of_decide_eq_true hpp)
      · intro hp
        exact ⟨htL, decide_eq_true (hmemP.mpr hp)⟩
    · rw [hvmF, List.mem_toFinset, List.mem_filter]
      constructor
      · rintro ⟨_, hpp⟩
        cases hpres : t.isPresent with
        | false => rfl
        | true =>
          exfalso
          rw [decide_eq_true (hmemP.mpr hpres)] at hpp
          cases hpp
      · intro hp
        refine ⟨htL, ?_⟩
        have hnp : t.epc ∉ (trueTags.filter (·.isPresent)).map (·.epc) := by
          intro hm
          rw [hmemP.mp hm] at hp
          cases hp
        rw [decide_eq_false hnp]
        rfl

set_option maxRecDepth 4000 in
theorem C2_noise_free_exact_witness :
    ((exampleTags.map (·.epc)).Nodup ∧
      (runSimulation {} {} lodsOps exampleTags (fun _ => {}) 5
        exampleS0).toOption.map (·.2) = some exampleFinal ∧
      isFinishedAlg exampleFinal = true) ∧
    ∀ t ∈ exampleTags,
      (t.epc ∈ exampleFinal.verifiedPresent ↔ t.isPresent = true) ∧
      (t.epc ∈ exampleFinal.verifiedMissing ↔ t.isPresent = false) :=
  ⟨⟨by decide, rfl, rfl⟩,
   C2_noise_free_exact {} {} rfl rfl rfl rfl rfl rfl 128 4 256 exampleTags
     (by decide) (by decide) (fun _ => {}) 5 exampleFinal rfl rfl⟩

end LODS
